import Mathlib

/-!
# Verification of the AegisCrypt chunked encryption core

Shallow embedding of `src/services/cryptoService.ts` (the chunked v2
implementation: `prepareKeyMaterial`, `deriveKey`, `packageChunk`,
`processFileEncrypt`, `processFileDecrypt`) and `src/constants.ts`.

Bytes are modelled as `List Nat`.  The host WebCrypto primitives
(PBKDF2 key derivation, SHA-256, AES-256-GCM) are not part of the
repository; they are modelled as ideal, collision-free symbolic
primitives, built on an injective, efficiently computable encoding
of byte lists into naturals (`encB`).  Concretely:

* `sha256` is an ideal hash: a 32-entry list whose head is the
  injective encoding of the input;
* `deriveKey` is an ideal KDF: an injective pairing of key material
  and salt;
* AES-GCM is an ideal AEAD: the ciphertext is the plaintext followed
  by a 16-entry authentication tag whose head injectively encodes
  (key, iv, plaintext); decryption recomputes and compares the tag.

Entries of the symbolic tag are naturals that can exceed 255; the
byte-level operations of the code (length fields, header bytes) only
ever produce genuine byte values, so this does not affect any claim.
-/

namespace Aegis

/-- Byte sequences (JS `Uint8Array` contents), as lists of naturals. -/
abbrev Bytes := List Nat

/-! ## Constants, from `src/constants.ts` -/

/-- `FILE_MAGIC = [0x41, 0x45, 0x47, 0x49, 0x53]` ("AEGIS"). -/
def FILE_MAGIC : Bytes := [0x41, 0x45, 0x47, 0x49, 0x53]

/-- `FILE_VERSION = 2` (chunked format). -/
def FILE_VERSION : Nat := 2

/-- `CRYPTO_CONSTANTS.SALT_LENGTH = 32`. -/
def SALT_LENGTH : Nat := 32

/-- `CRYPTO_CONSTANTS.IV_LENGTH = 12`. -/
def IV_LENGTH : Nat := 12

/-- `CRYPTO_CONSTANTS.CHUNK_SIZE = 1024 * 1024`. -/
def CHUNK_SIZE : Nat := 1024 * 1024

/-- `HEADER_LENGTH = FILE_MAGIC.length + 1 + SALT_LENGTH = 38`. -/
def HEADER_LENGTH : Nat := FILE_MAGIC.length + 1 + SALT_LENGTH

/-! ## An injective, efficiently computable encoding of byte lists

`encB` writes each entry in binary (digits 0/1 of base 4) followed by
a separator digit 2, and reads the digit string as a base-4 number.
The decoder `decB` is a left inverse, which yields injectivity.
This keeps the encoding of realistic lists small (linear number of
base-4 digits), unlike an iterated-pairing encoding. -/

/-- Binary digits of `b`, least significant first (empty for 0);
structural recursion on a fuel bound so that it reduces in the kernel. -/
def bitsAux : Nat → Nat → List Nat
  | 0, _ => []
  | fuel + 1, b => if b = 0 then [] else b % 2 :: bitsAux fuel (b / 2)

/-- Binary digits of `b`, least significant first. -/
def bits (b : Nat) : List Nat := bitsAux b b

theorem bitsAux_irrel (b : Nat) :
    ∀ f₁ f₂, b ≤ f₁ → b ≤ f₂ → bitsAux f₁ b = bitsAux f₂ b := by
  induction b using Nat.strong_induction_on with
  | _ b ih =>
    intro f₁ f₂ h₁ h₂
    by_cases h0 : b = 0
    · subst h0
      cases f₁ <;> cases f₂ <;> rfl
    · have hpos : 0 < b := Nat.pos_of_ne_zero h0
      have hdiv : b / 2 < b := Nat.div_lt_self hpos (by norm_num)
      cases f₁ with
      | zero => omega
      | succ n₁ =>
        cases f₂ with
        | zero => omega
        | succ n₂ =>
          rw [bitsAux, bitsAux, if_neg h0, if_neg h0]
          rw [ih (b / 2) hdiv n₁ n₂ (by omega) (by omega)]

theorem bits_zero : bits 0 = [] := rfl

theorem bits_pos (b : Nat) (hb : b ≠ 0) : bits b = b % 2 :: bits (b / 2) := by
  have hpos : 0 < b := Nat.pos_of_ne_zero hb
  have hdiv : b / 2 < b := Nat.div_lt_self hpos (by norm_num)
  cases hb' : b with
  | zero => exact absurd hb' hb
  | succ m =>
    rw [bits, bitsAux, if_neg (by omega)]
    rw [← hb']
    rw [bitsAux_irrel (b / 2) m (b / 2) (by omega) le_rfl]
    rfl

/-- The binary digits of `b`, spread out as base-4 digits (bit `i` of
`b` becomes base-4 digit `i`). -/
def spread (b : Nat) : Nat :=
  (bits b).foldr (fun d acc => d + 4 * acc) 0

/-- Number of binary digits of `b` (0 for 0). -/
def blen (b : Nat) : Nat := (bits b).length

/-- Injective encoding of a list of naturals into a natural:
digits of the head occupy the least significant base-4 positions,
each entry terminated by the separator digit 2. -/
def encB : List Nat → Nat
  | [] => 0
  | b :: t => (encB t * 4 + 2) * 4 ^ blen b + spread b

/-- Decoder for `encB`: reads base-4 digits from the least significant
end, accumulating bits of the current entry until a separator digit. -/
def decB (n : Nat) (cur pow : Nat) : List Nat :=
  if h : n = 0 then []
  else if n % 4 = 2 then cur :: decB (n / 4) 0 1
  else decB (n / 4) (cur + n % 4 * pow) (pow * 2)
decreasing_by
  all_goals exact Nat.div_lt_self (Nat.pos_of_ne_zero h) (by norm_num)

theorem spread_zero : spread 0 = 0 := rfl

theorem blen_zero : blen 0 = 0 := rfl

theorem spread_pos (b : Nat) (hb : b ≠ 0) :
    spread b = 4 * spread (b / 2) + b % 2 := by
  rw [spread, spread, bits_pos b hb]
  simp [List.foldr_cons]
  omega

theorem blen_pos (b : Nat) (hb : b ≠ 0) : blen b = blen (b / 2) + 1 := by
  rw [blen, blen, bits_pos b hb]
  rfl

/-- Key step for the retraction: decoding an encoded entry consumes
exactly its digits and its separator. -/
theorem decB_step (b : Nat) :
    ∀ m cur pow, decB ((m * 4 + 2) * 4 ^ blen b + spread b) cur pow
      = (cur + b * pow) :: decB m 0 1 := by
  induction b using Nat.strong_induction_on with
  | _ b ih =>
    intro m cur pow
    by_cases hb : b = 0
    · subst hb
      simp only [blen_zero, spread_zero, pow_zero, mul_one, add_zero, zero_mul]
      have hne : m * 4 + 2 ≠ 0 := by omega
      have h1 : (m * 4 + 2) % 4 = 2 := by omega
      have h2 : (m * 4 + 2) / 4 = m := by omega
      rw [decB, dif_neg hne, if_pos h1, h2]
    · have hblen := blen_pos b hb
      have hspread := spread_pos b hb
      have hb2 : b % 2 < 2 := Nat.mod_lt _ (by norm_num)
      have key : (m * 4 + 2) * 4 ^ blen b + spread b
          = ((m * 4 + 2) * 4 ^ blen (b / 2) + spread (b / 2)) * 4 + b % 2 := by
        rw [hblen, hspread, pow_succ]; ring
      have hmod : ((m * 4 + 2) * 4 ^ blen b + spread b) % 4 = b % 2 := by
        rw [key]; omega
      have hdiv : ((m * 4 + 2) * 4 ^ blen b + spread b) / 4
          = (m * 4 + 2) * 4 ^ blen (b / 2) + spread (b / 2) := by
        rw [key]; omega
      have hne : (m * 4 + 2) * 4 ^ blen b + spread b ≠ 0 := by
        have h1 : 1 ≤ 4 ^ blen b := Nat.one_le_pow _ _ (by norm_num)
        nlinarith
      have hnot2 : ¬ ((m * 4 + 2) * 4 ^ blen b + spread b) % 4 = 2 := by
        rw [hmod]; omega
      rw [decB, dif_neg hne, if_neg hnot2, hmod, hdiv]
      rw [ih (b / 2) (Nat.div_lt_self (Nat.pos_of_ne_zero hb) (by norm_num)) m
        (cur + b % 2 * pow) (pow * 2)]
      congr 1
      have hb' : b % 2 + 2 * (b / 2) = b := Nat.mod_add_div b 2
      calc cur + b % 2 * pow + b / 2 * (pow * 2)
          = cur + (b % 2 + 2 * (b / 2)) * pow := by ring
        _ = cur + b * pow := by rw [hb']

/-- `decB` is a left inverse of `encB`. -/
theorem decB_encB : ∀ l : List Nat, decB (encB l) 0 1 = l := by
  intro l
  induction l with
  | nil => rw [encB, decB]; simp
  | cons b t ih =>
    rw [encB, decB_step b (encB t) 0 1, ih]
    simp

/-- `encB` is injective. -/
theorem encB_inj : Function.Injective encB := by
  intro a b h
  have := decB_encB a
  rw [h, decB_encB b] at this
  exact this.symm

/-! ## Ideal models of the host WebCrypto primitives

These are not repository code: `window.crypto.subtle` is a host
capability.  They are modelled as ideal (collision-free, perfectly
authenticating) symbolic primitives, as the spec treats them
(`SHA-256`, `PBKDF2`, `AES-256-GCM` with 128-bit tag). -/

/-- Ideal model of `crypto.subtle.digest('SHA-256', data)`:
a 32-entry digest whose head injectively encodes the input. -/
def sha256 (data : Bytes) : Bytes :=
  encB data :: List.replicate 31 0

theorem sha256_length (data : Bytes) : (sha256 data).length = 32 := by
  simp [sha256]

theorem sha256_inj : Function.Injective sha256 := by
  intro a b h
  simp only [sha256, List.cons.injEq] at h
  exact encB_inj h.1

/-- Ideal model of the PBKDF2 derivation in `deriveKey`
(`src/services/cryptoService.ts`, lines 219-240): an opaque key handle,
an injective function of the raw key material and the salt. -/
def deriveKey (keyMaterialRaw salt : Bytes) : Nat :=
  Nat.pair (encB keyMaterialRaw) (encB salt)

theorem deriveKey_inj (km₁ salt₁ km₂ salt₂ : Bytes)
    (h : deriveKey km₁ salt₁ = deriveKey km₂ salt₂) :
    km₁ = km₂ ∧ salt₁ = salt₂ := by
  simp only [deriveKey, Nat.pair_eq_pair] at h
  exact ⟨encB_inj h.1, encB_inj h.2⟩

/-- Ideal 16-entry AES-GCM authentication tag: the head injectively
encodes (key, iv, plaintext). -/
def aeadTag (key : Nat) (iv pt : Bytes) : Bytes :=
  Nat.pair key (Nat.pair (encB iv) (encB pt)) :: List.replicate 15 0

theorem aeadTag_length (key : Nat) (iv pt : Bytes) :
    (aeadTag key iv pt).length = 16 := by simp [aeadTag]

theorem aeadTag_inj {key₁ key₂ : Nat} {iv₁ pt₁ iv₂ pt₂ : Bytes}
    (h : aeadTag key₁ iv₁ pt₁ = aeadTag key₂ iv₂ pt₂) :
    key₁ = key₂ ∧ iv₁ = iv₂ ∧ pt₁ = pt₂ := by
  simp only [aeadTag, List.cons.injEq, Nat.pair_eq_pair] at h
  exact ⟨h.1.1, encB_inj h.1.2.1, encB_inj h.1.2.2⟩

/-- Ideal model of `crypto.subtle.encrypt({name: 'AES-GCM', iv}, key, pt)`:
ciphertext is the plaintext followed by the 128-bit tag. -/
def aeadEncrypt (key : Nat) (iv pt : Bytes) : Bytes :=
  pt ++ aeadTag key iv pt

theorem aeadEncrypt_length (key : Nat) (iv pt : Bytes) :
    (aeadEncrypt key iv pt).length = pt.length + 16 := by
  simp [aeadEncrypt, aeadTag]

/-- Ideal model of `crypto.subtle.decrypt({name: 'AES-GCM', iv}, key, ct)`:
recomputes the tag over the body and compares; `none` models the thrown
`OperationError` on authentication failure (including ciphertexts too
short to contain a tag). -/
def aeadDecrypt (key : Nat) (iv ct : Bytes) : Option Bytes :=
  if ct.length < 16 then none
  else
    let body := ct.take (ct.length - 16)
    if ct.drop (ct.length - 16) = aeadTag key iv body then some body else none

/-- Behaviour of the ideal decrypt on a body followed by a 16-entry
trailer: succeeds exactly when the trailer is the tag of the body. -/
theorem aeadDecrypt_append (key : Nat) (iv pt tg : Bytes) (h16 : tg.length = 16) :
    aeadDecrypt key iv (pt ++ tg) = if tg = aeadTag key iv pt then some pt else none := by
  have hlen : (pt ++ tg).length = pt.length + 16 := by
    simp [h16]
  have hsub : (pt ++ tg).length - 16 = pt.length := by omega
  simp only [aeadDecrypt, hsub]
  rw [if_neg (by omega), List.take_left, List.drop_left]

theorem aeadDecrypt_encrypt (key : Nat) (iv pt : Bytes) :
    aeadDecrypt key iv (aeadEncrypt key iv pt) = some pt := by
  rw [aeadEncrypt, aeadDecrypt_append key iv pt _ (aeadTag_length key iv pt)]
  simp

/-- Decrypting a ciphertext produced under a different key fails
(ideal authentication). -/
theorem aeadDecrypt_wrong_key (key₁ key₂ : Nat) (iv₁ iv₂ pt : Bytes)
    (hk : key₁ ≠ key₂) :
    aeadDecrypt key₂ iv₂ (aeadEncrypt key₁ iv₁ pt) = none := by
  rw [aeadEncrypt, aeadDecrypt_append key₂ iv₂ pt _ (aeadTag_length key₁ iv₁ pt)]
  rw [if_neg]
  intro h
  exact hk (aeadTag_inj h).1

/-! ## Byte-level operations of the JavaScript runtime -/

/-- `DataView.setInt32(0, n, true)` for a natural `n`: the four
little-endian bytes of `n mod 2^32`. -/
def toLE32 (n : Nat) : Bytes :=
  [n % 256, n / 256 % 256, n / 65536 % 256, n / 16777216 % 256]

theorem toLE32_length (n : Nat) : (toLE32 n).length = 4 := rfl

/-- `DataView.getUint32(off, true)`-style read used to model
`getInt32`: little-endian combination of four bytes (0 for reads past
the end, which the code guards against). -/
def readUInt32LE (buf : Bytes) (off : Nat) : Nat :=
  (buf.drop off).getD 0 0 + 256 * (buf.drop off).getD 1 0
    + 65536 * (buf.drop off).getD 2 0 + 16777216 * (buf.drop off).getD 3 0

/-- `DataView.getInt32(off, true)`: signed two's-complement
interpretation of the little-endian 32-bit read. -/
def readInt32LE (buf : Bytes) (off : Nat) : Int :=
  let u := readUInt32LE buf off
  if u < 2 ^ 31 then (u : Int) else (u : Int) - 2 ^ 32

/-- Index resolution of `Uint8Array.prototype.slice`: a negative index
counts from the end; the result is clamped to `[0, length]`. -/
def jsClamp (len x : Int) : Nat :=
  if x < 0 then (len + x).toNat else min x.toNat len.toNat

/-- `Uint8Array.prototype.slice(start, end)`: indices resolved by
`jsClamp`; an empty array results when the resolved end does not
exceed the resolved start. -/
def jsSlice (buf : Bytes) (start endd : Int) : Bytes :=
  let s := jsClamp buf.length start
  let e := jsClamp buf.length endd
  if e ≤ s then [] else (buf.take e).drop s

/-- `Uint8Array.prototype.set(src, off)` (which requires
`off + src.length ≤ buf.length`; the code only uses it within bounds). -/
def jsSetAt (buf src : Bytes) (off : Nat) : Bytes :=
  buf.take off ++ src ++ buf.drop (off + src.length)

/-- `Math.min(99, Math.round((p / t) * 100))` — the progress value
computed by both loops.  `Math.round x = ⌊x + 1/2⌋`, modelled exactly
on the rational `100·p/t` (the JS computation is in binary floating
point; the claims never depend on sub-ulp rounding differences). -/
def progressArg (p t : Int) : Int :=
  min 99 (Int.fdiv (200 * p + t) (2 * t))

/-- Fuel-based helper for `chunkify`; `data.length` is always enough
fuel, and structural recursion keeps it kernel-reducible. -/
def chunkifyAux : Nat → Bytes → List Bytes
  | 0, _ => []
  | fuel + 1, data =>
    if data = [] then []
    else data.take CHUNK_SIZE :: chunkifyAux fuel (data.drop CHUNK_SIZE)

/-- The chunking of the encrypt loop
(`for (let offset = 0; offset < totalSize; offset += CHUNK_SIZE)`
with `file.slice(offset, offset + CHUNK_SIZE)`). -/
def chunkify (data : Bytes) : List Bytes := chunkifyAux data.length data

theorem chunkifyAux_irrel_aux (n : Nat) :
    ∀ (data : Bytes), data.length = n → ∀ f₁ f₂, data.length ≤ f₁ → data.length ≤ f₂ →
      chunkifyAux f₁ data = chunkifyAux f₂ data := by
  induction n using Nat.strong_induction_on with
  | _ n ih =>
    intro data hn f₁ f₂ h₁ h₂
    by_cases h0 : data = []
    · subst h0
      cases f₁ <;> cases f₂ <;> rfl
    · have hpos : 0 < data.length := List.length_pos.mpr h0
      have hcs : 0 < CHUNK_SIZE := by norm_num [CHUNK_SIZE]
      have hdl : (data.drop CHUNK_SIZE).length < data.length := by
        simp only [List.length_drop]; omega
      cases f₁ with
      | zero => omega
      | succ n₁ =>
        cases f₂ with
        | zero => omega
        | succ n₂ =>
          rw [chunkifyAux, chunkifyAux, if_neg h0, if_neg h0]
          rw [ih (data.drop CHUNK_SIZE).length (by omega) (data.drop CHUNK_SIZE) rfl n₁ n₂
            (by simp only [List.length_drop] at hdl ⊢; omega)
            (by simp only [List.length_drop] at hdl ⊢; omega)]

theorem chunkifyAux_irrel (data : Bytes) (f₁ f₂ : Nat)
    (h₁ : data.length ≤ f₁) (h₂ : data.length ≤ f₂) :
    chunkifyAux f₁ data = chunkifyAux f₂ data :=
  chunkifyAux_irrel_aux data.length data rfl f₁ f₂ h₁ h₂

theorem chunkify_nil : chunkify [] = [] := rfl

theorem chunkify_cons (data : Bytes) (h : data ≠ []) :
    chunkify data = data.take CHUNK_SIZE :: chunkify (data.drop CHUNK_SIZE) := by
  have hpos : 0 < data.length := List.length_pos.mpr h
  have hcs : 0 < CHUNK_SIZE := by norm_num [CHUNK_SIZE]
  rw [chunkify]
  cases hl : data.length with
  | zero => omega
  | succ m =>
    rw [chunkifyAux, if_neg h, chunkify]
    rw [chunkifyAux_irrel (data.drop CHUNK_SIZE) m (data.drop CHUNK_SIZE).length
      (by simp only [List.length_drop]; omega) le_rfl]

theorem chunkify_join_aux :
    ∀ n (data : Bytes), data.length ≤ n → (chunkify data).flatten = data := by
  intro n
  induction n with
  | zero =>
    intro data h
    have hd : data = [] := List.eq_nil_of_length_eq_zero (by omega)
    subst hd
    rw [chunkify_nil]
    rfl
  | succ n ih =>
    intro data h
    by_cases hd : data = []
    · subst hd; rw [chunkify_nil]; rfl
    · rw [chunkify_cons data hd]
      have hcs : 0 < CHUNK_SIZE := by norm_num [CHUNK_SIZE]
      have hlen : (data.drop CHUNK_SIZE).length ≤ n := by
        simp only [List.length_drop]
        have : 0 < data.length := List.length_pos.mpr hd
        omega
      simp only [List.flatten_cons, ih (data.drop CHUNK_SIZE) hlen]
      exact List.take_append_drop _ _

/-- Joining the chunks recovers the input. -/
theorem chunkify_join (data : Bytes) : (chunkify data).flatten = data :=
  chunkify_join_aux data.length data le_rfl

theorem chunkify_le_aux :
    ∀ n (data : Bytes), data.length ≤ n →
      ∀ c ∈ chunkify data, c.length ≤ CHUNK_SIZE := by
  intro n
  induction n with
  | zero =>
    intro data h c hc
    have hd : data = [] := List.eq_nil_of_length_eq_zero (by omega)
    subst hd
    rw [chunkify_nil] at hc
    cases hc
  | succ n ih =>
    intro data h c hc
    by_cases hd : data = []
    · subst hd; rw [chunkify_nil] at hc; cases hc
    · rw [chunkify_cons data hd] at hc
      have hcs : 0 < CHUNK_SIZE := by norm_num [CHUNK_SIZE]
      have hlen : (data.drop CHUNK_SIZE).length ≤ n := by
        simp only [List.length_drop]
        have : 0 < data.length := List.length_pos.mpr hd
        omega
      rcases List.mem_cons.mp hc with rfl | hc
      · exact List.length_take_le _ _
      · exact ih (data.drop CHUNK_SIZE) hlen c hc

/-- Every chunk is at most `CHUNK_SIZE` long. -/
theorem chunkify_le (data : Bytes) :
    ∀ c ∈ chunkify data, c.length ≤ CHUNK_SIZE :=
  chunkify_le_aux data.length data le_rfl

/-! ## The chunked v2 implementation (`src/services/cryptoService.ts`) -/

/-- The errors thrown by `processFileDecrypt` (and, in the
cancellation model, `CancelledError`):
* `invalidMagic` — "Invalid .aegis file" (line 329);
* `versionMismatch found` — "Version mismatch. File is v…, App expects
  v2." (line 333), carrying the version byte actually found (`none`
  models JS `undefined` when the buffer has fewer than 6 bytes);
* `unexpectedEOF` — "Corrupted file: Unexpected EOF" (line 351);
* `decryptFailed` — "Decryption failed. Bad password or corrupted
  chunk." (line 366);
* `rangeError` — the JS `RangeError` that `DataView.getInt32` throws
  on a negative offset (reachable only after a negative chunk length);
* `cancelled` — used only by the spec-modelled cancellation variants. -/
inductive Err where
  | invalidMagic
  | versionMismatch (found : Option Nat)
  | unexpectedEOF
  | decryptFailed
  | rangeError
  | cancelled
deriving DecidableEq, Repr

/-- Observable calls into the host crypto provider, recorded as an
event trace: one `deriveKeyCall` per PBKDF2 derivation, one
`decryptCall` per `crypto.subtle.decrypt` invocation. -/
inductive Ev where
  | deriveKeyCall
  | decryptCall
deriving DecidableEq, Repr

/-- `prepareKeyMaterial` (lines 200-214): password bytes alone, or
password bytes followed by the SHA-256 digest of the keyfile. -/
def prepareKeyMaterial (password : Bytes) (keyFile : Option Bytes) : Bytes :=
  match keyFile with
  | none => password
  | some kf => password ++ sha256 kf

/-- `packageChunk` (lines 245-255): a buffer of size `4 + length`
holding the little-endian `Int32` length, the IV at offset 4 and the
ciphertext at offset `4 + iv.length`, i.e. `len ‖ iv ‖ ct` with
`len = iv.length + ct.length`. -/
def packageChunk (iv ct : Bytes) : Bytes :=
  toLE32 (iv.length + ct.length) ++ iv ++ ct

theorem packageChunk_length (iv ct : Bytes) :
    (packageChunk iv ct).length = 4 + iv.length + ct.length := by
  simp [packageChunk, toLE32]
  omega

/-- The `while (offset < totalLength)` frame loop of
`processFileDecrypt` (lines 345-372).  `fuel` is for the recursion
only; `buf.length + 1` always suffices (each non-final iteration
advances `offset` by at least 32), and `none` would model a
non-terminating run.  The accumulated event trace records each
`crypto.subtle.decrypt` call. -/
def decLoop (key : Nat) (buf : Bytes) :
    Nat → Int → List Bytes → List Int → List Ev →
    List Ev × Option (Except Err (List Bytes × List Int))
  | 0, _, _, _, evs => (evs, none)
  | fuel + 1, offset, acc, prog, evs =>
    if offset < (buf.length : Int) then
      if offset + 4 > (buf.length : Int) then (evs, some (.ok (acc, prog)))
      else if offset < 0 then (evs, some (.error .rangeError))
      else if offset + 4 + readInt32LE buf offset.toNat > (buf.length : Int) then
        (evs, some (.error .unexpectedEOF))
      else
        (aeadDecrypt key
            (jsSlice (jsSlice buf (offset + 4) (offset + 4 + readInt32LE buf offset.toNat))
              0 IV_LENGTH)
            (jsSlice (jsSlice buf (offset + 4) (offset + 4 + readInt32LE buf offset.toNat))
              IV_LENGTH
              ((jsSlice buf (offset + 4) (offset + 4 + readInt32LE buf offset.toNat)).length : Int))).elim
          (evs ++ [.decryptCall], some (.error .decryptFailed))
          (fun pt =>
            decLoop key buf fuel (offset + 4 + readInt32LE buf offset.toNat) (acc ++ [pt])
              (prog ++ [progressArg (offset + 4 + readInt32LE buf offset.toNat) (buf.length : Int)])
              (evs ++ [.decryptCall]))
    else (evs, some (.ok (acc, prog)))

/-- `processFileDecrypt` (lines 318-384): magic check, version check
(against the literal `2`), salt extraction `slice(6, 38)`, key
derivation, then the frame loop; the result pairs the decrypted bytes
with the list of `onProgress` arguments. -/
def processFileDecrypt (password : Bytes) (keyFile : Option Bytes) (buf : Bytes) :
    List Ev × Option (Except Err (Bytes × List Int)) :=
  if ∀ i < FILE_MAGIC.length, buf.get? i = FILE_MAGIC.get? i then
    if buf.get? FILE_MAGIC.length = some 2 then
      let salt := jsSlice buf 6 (6 + SALT_LENGTH)
      let keyMaterial := prepareKeyMaterial password keyFile
      let key := deriveKey keyMaterial salt
      let r := decLoop key buf (buf.length + 1) 38 [] [] [.deriveKeyCall]
      (r.1, r.2.map (Except.map fun p => (p.1.flatten, p.2)))
    else ([], some (.error (.versionMismatch (buf.get? FILE_MAGIC.length))))
  else ([], some (.error .invalidMagic))

/-- The decrypted bytes of `processFileDecrypt`, without the event
trace and progress values. -/
def decryptResult (password : Bytes) (keyFile : Option Bytes) (buf : Bytes) :
    Option (Except Err Bytes) :=
  (processFileDecrypt password keyFile buf).2.map (Except.map Prod.fst)

/-- Header construction of `processFileEncrypt` (lines 272-275):
a 38-byte buffer with the magic at 0, the version at 5 and the salt
at 6. -/
def buildHeader (salt : Bytes) : Bytes :=
  jsSetAt (jsSetAt (jsSetAt (List.replicate HEADER_LENGTH 0) FILE_MAGIC 0)
    [FILE_VERSION] 5) salt 6

/-- The chunk loop of `processFileEncrypt` (lines 282-300): per chunk,
a fresh IV (`ivs i` models the i-th `generateIV()` draw), AES-GCM
encryption, framing via `packageChunk`, and an `onProgress` call with
`min(99, round(processed / total * 100))`. -/
def encLoop (key : Nat) (ivs : Nat → Bytes) (total : Nat) :
    List Bytes → Nat → Nat → List Bytes × List Int
  | [], _, _ => ([], [])
  | c :: cs, i, processed =>
    (packageChunk (ivs i) (aeadEncrypt key (ivs i) c)
        :: (encLoop key ivs total cs (i + 1) (processed + c.length)).1,
     progressArg ((processed + c.length : Nat) : Int) (total : Int)
        :: (encLoop key ivs total cs (i + 1) (processed + c.length)).2)

/-- `processFileEncrypt` (lines 261-313).  `salt` models the
`generateSalt()` draw (32 CSPRNG bytes) and `ivs i` the i-th
`generateIV()` draw; the result pairs the container bytes with the
list of `onProgress` arguments. -/
def processFileEncrypt (password : Bytes) (keyFile : Option Bytes)
    (salt : Bytes) (ivs : Nat → Bytes) (data : Bytes) : Bytes × List Int :=
  let keyMaterial := prepareKeyMaterial password keyFile
  let key := deriveKey keyMaterial salt
  let header := buildHeader salt
  let r := encLoop key ivs data.length (chunkify data) 0 0
  (header ++ r.1.flatten, r.2)

/-! ## Cancellation model

The callers of `processFileEncrypt`/`processFileDecrypt` (`App.tsx`,
`src/tests/cryptoService.test.ts`) pass an `AbortSignal` argument and
the test suite expects a mid-stream abort to reject with `/Cancelled/`,
but the signal-handling bodies are not among the provided sources, so
the cancellation behaviour is modelled from the spec (§4.5/§5): the
token is polled at the top of each chunk/frame loop iteration; once
observed, the operation fails with `CancelledError` and all partial
output is discarded. -/

/-- Modelled from the spec: the encrypt chunk loop of
`encryptStream(source, credential, cancelToken, onProgress)` with
cancellation polled at the top of each iteration (`cancel i` = token
signaled when chunk `i` is about to be processed); absent from
`src/services/cryptoService.ts`. -/
def encryptCancelLoop (cancel : Nat → Bool) (key : Nat) (ivs : Nat → Bytes)
    (total : Nat) : List Bytes → Nat → Nat → Except Err (List Bytes × List Int)
  | [], _, _ => .ok ([], [])
  | c :: cs, i, processed =>
    if cancel i then .error .cancelled
    else
      match encryptCancelLoop cancel key ivs total cs (i + 1) (processed + c.length) with
      | .error e => .error e
      | .ok r =>
        .ok (packageChunk (ivs i) (aeadEncrypt key (ivs i) c) :: r.1,
          progressArg ((processed + c.length : Nat) : Int) (total : Int) :: r.2)

/-- Modelled from the spec: `encryptStream` with a cancellation token;
on cancellation, all partial output is discarded and only
`CancelledError` is returned. -/
def encryptStreamCancel (cancel : Nat → Bool) (password : Bytes)
    (keyFile : Option Bytes) (salt : Bytes) (ivs : Nat → Bytes) (data : Bytes) :
    Except Err (Bytes × List Int) :=
  let key := deriveKey (prepareKeyMaterial password keyFile) salt
  match encryptCancelLoop cancel key ivs data.length (chunkify data) 0 0 with
  | .error e => .error e
  | .ok r => .ok (buildHeader salt ++ r.1.flatten, r.2)

/-- Modelled from the spec: the decrypt frame loop with cancellation
polled at the top of each iteration (`cancel idx` = token signaled when
frame `idx` is about to be parsed); otherwise identical to `decLoop`. -/
def decryptCancelLoop (cancel : Nat → Bool) (key : Nat) (buf : Bytes) :
    Nat → Int → Nat → List Bytes → Option (Except Err (List Bytes))
  | 0, _, _, _ => none
  | fuel + 1, offset, idx, acc =>
    if offset < (buf.length : Int) then
      if cancel idx then some (.error .cancelled)
      else if offset + 4 > (buf.length : Int) then some (.ok acc)
      else if offset < 0 then some (.error .rangeError)
      else if offset + 4 + readInt32LE buf offset.toNat > (buf.length : Int) then
        some (.error .unexpectedEOF)
      else
        (aeadDecrypt key
            (jsSlice (jsSlice buf (offset + 4) (offset + 4 + readInt32LE buf offset.toNat))
              0 IV_LENGTH)
            (jsSlice (jsSlice buf (offset + 4) (offset + 4 + readInt32LE buf offset.toNat))
              IV_LENGTH
              ((jsSlice buf (offset + 4) (offset + 4 + readInt32LE buf offset.toNat)).length : Int))).elim
          (some (.error .decryptFailed))
          (fun pt =>
            decryptCancelLoop cancel key buf fuel
              (offset + 4 + readInt32LE buf offset.toNat) (idx + 1) (acc ++ [pt]))
    else some (.ok acc)

/-- Modelled from the spec: `decryptStream` with a cancellation token. -/
def decryptStreamCancel (cancel : Nat → Bool) (password : Bytes)
    (keyFile : Option Bytes) (buf : Bytes) : Option (Except Err Bytes) :=
  if ∀ i < FILE_MAGIC.length, buf.get? i = FILE_MAGIC.get? i then
    if buf.get? FILE_MAGIC.length = some 2 then
      let salt := jsSlice buf 6 (6 + SALT_LENGTH)
      let key := deriveKey (prepareKeyMaterial password keyFile) salt
      (decryptCancelLoop cancel key buf (buf.length + 1) 38 0 []).map
        (Except.map List.flatten)
    else some (.error (.versionMismatch (buf.get? FILE_MAGIC.length)))
  else some (.error .invalidMagic)

/-! ## Byte-level helper lemmas -/

theorem readUInt32LE_at (pre : Bytes) (n : Nat) (rest : Bytes) :
    readUInt32LE (pre ++ (toLE32 n ++ rest)) pre.length = n % 4294967296 := by
  rw [readUInt32LE, List.drop_left]
  show n % 256 + 256 * (n / 256 % 256) + 65536 * (n / 65536 % 256)
      + 16777216 * (n / 16777216 % 256) = n % 4294967296
  omega

theorem readInt32LE_at (pre : Bytes) (n : Nat) (rest : Bytes) (h : n < 2 ^ 31) :
    readInt32LE (pre ++ (toLE32 n ++ rest)) pre.length = (n : Int) := by
  rw [readInt32LE, readUInt32LE_at]
  have hm : n % 4294967296 = n := Nat.mod_eq_of_lt (by omega)
  rw [hm, if_pos (by omega)]

/-- Resolving a nonnegative index clamps it to the length. -/
theorem jsClamp_natCast (len : Nat) (k : Nat) :
    jsClamp (len : Int) (k : Int) = min k len := by
  rw [jsClamp, if_neg (by omega)]
  simp

/-- `jsSlice` extracts exactly the middle segment when start and end
are its exact bounds. -/
theorem jsSlice_exact (A X B : Bytes) :
    jsSlice (A ++ X ++ B) (A.length : Int) ((A.length : Int) + (X.length : Int)) = X := by
  rw [jsSlice]
  have hAX : (A.length : Int) + (X.length : Int) = ((A.length + X.length : Nat) : Int) := by
    push_cast; ring
  have hlen : (A ++ X ++ B).length = A.length + X.length + B.length := by
    simp [List.length_append]
    omega
  rw [hAX, jsClamp_natCast, jsClamp_natCast, hlen]
  rw [min_eq_left (by omega), min_eq_left (by omega)]
  by_cases hX : X.length = 0
  · rw [if_pos (by omega)]
    exact (List.eq_nil_of_length_eq_zero hX).symm
  · rw [if_neg (by omega)]
    have h3 : (A ++ X ++ B).take (A.length + X.length) = A ++ X := by
      have h4 : (A ++ X).length = A.length + X.length := List.length_append A X
      rw [← h4, List.take_left]
    rw [h3, List.drop_left]

/-- `jsSlice` from 0 to the length of a leading segment extracts it. -/
theorem jsSlice_front (X B : Bytes) :
    jsSlice (X ++ B) 0 (X.length : Int) = X := by
  have h := jsSlice_exact [] X B
  simpa using h

/-- `jsSlice` from the length of a leading segment to the full length
extracts the rest. -/
theorem jsSlice_suffix (A X : Bytes) :
    jsSlice (A ++ X) (A.length : Int) ((A ++ X).length : Int) = X := by
  have h := jsSlice_exact A X []
  have hlen : ((A ++ X).length : Int) = (A.length : Int) + (X.length : Int) := by
    simp [List.length_append]
  rw [hlen]
  simpa using h

/-- With a 32-byte salt, the header is `magic ‖ version ‖ salt`. -/
theorem buildHeader_eq (salt : Bytes) (hs : salt.length = 32) :
    buildHeader salt = FILE_MAGIC ++ [FILE_VERSION] ++ salt := by
  rw [buildHeader]
  rw [show jsSetAt (jsSetAt (List.replicate HEADER_LENGTH 0) FILE_MAGIC 0)
      [FILE_VERSION] 5
      = FILE_MAGIC ++ [FILE_VERSION] ++ List.replicate 32 (0 : Nat) from rfl]
  rw [jsSetAt, hs]
  rw [show (FILE_MAGIC ++ [FILE_VERSION] ++ List.replicate 32 (0 : Nat)).take 6
      = FILE_MAGIC ++ [FILE_VERSION] from rfl]
  rw [show (FILE_MAGIC ++ [FILE_VERSION] ++ List.replicate 32 (0 : Nat)).drop (6 + 32)
      = [] from rfl]
  simp

theorem buildHeader_length (salt : Bytes) (hs : salt.length = 32) :
    (buildHeader salt).length = HEADER_LENGTH := by
  rw [buildHeader_eq salt hs]
  simp [FILE_MAGIC, HEADER_LENGTH, SALT_LENGTH, hs]

/-! ## The frame view of the container -/

/-- The container frame for one (IV, plaintext) pair under a key. -/
def frameOf (key : Nat) (p : Bytes × Bytes) : Bytes :=
  packageChunk p.1 (aeadEncrypt key p.1 p.2)

theorem frameOf_length (key : Nat) (p : Bytes × Bytes)
    (hiv : p.1.length = IV_LENGTH) :
    (frameOf key p).length = p.2.length + 32 := by
  simp [frameOf, packageChunk_length, aeadEncrypt_length, hiv, IV_LENGTH]
  omega

/-- The buffer offsets just past each successive frame, given the
declared lengths of the frames. -/
def frameEnds (start : Nat) : List Nat → List Nat
  | [] => []
  | L :: Ls => (start + 4 + L) :: frameEnds (start + 4 + L) Ls

theorem frameEnds_nil (start : Nat) : frameEnds start [] = [] := rfl

theorem frameEnds_cons (start L : Nat) (Ls : List Nat) :
    frameEnds start (L :: Ls) = (start + 4 + L) :: frameEnds (start + 4 + L) Ls := rfl

theorem length_le_flatten_frames (key : Nat) (ivpts : List (Bytes × Bytes))
    (hiv : ∀ p ∈ ivpts, p.1.length = IV_LENGTH) :
    ivpts.length ≤ ((ivpts.map (frameOf key)).flatten).length := by
  induction ivpts with
  | nil => simp
  | cons p ps ih =>
    simp only [List.map_cons, List.flatten_cons, List.length_append, List.length_cons]
    have h1 : (frameOf key p).length = p.2.length + 32 :=
      frameOf_length key p (hiv p (List.mem_cons_self p ps))
    have h2 := ih (fun q hq => hiv q (List.mem_cons_of_mem p hq))
    omega

/-- Main loop lemma: on a buffer that is `pre` followed by the frames
of `ivpts` (IVs of length 12, plaintexts within the chunk bound) and
fewer than 4 trailing bytes, `decLoop` started at `pre.length`
decrypts every frame in order, emits one decrypt call and one progress
value per frame, and succeeds. -/
theorem decLoop_frames (key : Nat) :
    ∀ (ivpts : List (Bytes × Bytes)) (buf pre rest : Bytes)
      (fuel : Nat) (acc : List Bytes) (prog : List Int) (evs : List Ev),
      buf = pre ++ (ivpts.map (frameOf key)).flatten ++ rest →
      (∀ p ∈ ivpts, p.1.length = IV_LENGTH) →
      (∀ p ∈ ivpts, p.2.length ≤ CHUNK_SIZE) →
      rest.length < 4 →
      ivpts.length < fuel →
      decLoop key buf fuel (pre.length : Int) acc prog evs
        = (evs ++ List.replicate ivpts.length Ev.decryptCall,
           some (.ok (acc ++ ivpts.map Prod.snd,
             prog ++ (frameEnds pre.length (ivpts.map fun p => p.2.length + 28)).map
               (fun (o : Nat) => progressArg (o : Int) (buf.length : Int))))) := by
  intro ivpts
  induction ivpts with
  | nil =>
    intro buf pre rest fuel acc prog evs hbuf hiv hpt hrest hfuel
    cases fuel with
    | zero => omega
    | succ f =>
      have hbl : buf.length = pre.length + rest.length := by
        rw [hbuf]; simp
      rw [decLoop]
      simp only [List.map_nil, List.length_nil, List.replicate_zero, List.append_nil,
        frameEnds_nil]
      by_cases hr : rest.length = 0
      · rw [if_neg (by omega)]
      · rw [if_pos (by omega), if_pos (by omega)]
  | cons p ps ih =>
    intro buf pre rest fuel acc prog evs hbuf hiv hpt hrest hfuel
    cases fuel with
    | zero => simp at hfuel
    | succ f =>
      have hiv1 : p.1.length = 12 := hiv p (List.mem_cons_self p ps)
      have hpt1 : p.2.length ≤ CHUNK_SIZE := hpt p (List.mem_cons_self p ps)
      have hL31 : p.2.length + 28 < 2 ^ 31 := by
        have : CHUNK_SIZE = 1048576 := by norm_num [CHUNK_SIZE]
        omega
      have hframe : frameOf key p
          = toLE32 (p.2.length + 28) ++ (p.1 ++ aeadEncrypt key p.1 p.2) := by
        rw [frameOf, packageChunk, aeadEncrypt_length key p.1 p.2, hiv1]
        rw [show 12 + (p.2.length + 16) = p.2.length + 28 from by omega]
        simp [List.append_assoc]
      have hshape1 : buf
          = pre ++ (toLE32 (p.2.length + 28)
              ++ ((p.1 ++ aeadEncrypt key p.1 p.2)
                  ++ ((ps.map (frameOf key)).flatten ++ rest))) := by
        rw [hbuf]
        simp only [List.map_cons, List.flatten_cons, hframe]
        simp [List.append_assoc]
      have hshape2 : buf
          = (pre ++ toLE32 (p.2.length + 28))
            ++ (p.1 ++ aeadEncrypt key p.1 p.2)
            ++ ((ps.map (frameOf key)).flatten ++ rest) := by
        rw [hshape1]; simp [List.append_assoc]
      have hread : readInt32LE buf pre.length = ((p.2.length + 28 : Nat) : Int) := by
        rw [hshape1]
        exact readInt32LE_at pre (p.2.length + 28) _ hL31
      have hmidlen : (p.1 ++ aeadEncrypt key p.1 p.2).length = p.2.length + 28 := by
        rw [List.length_append, aeadEncrypt_length, hiv1]
        omega
      have hprelen : (pre ++ toLE32 (p.2.length + 28)).length = pre.length + 4 := by
        rw [List.length_append, toLE32_length]
      have hblen : buf.length
          = pre.length + 4 + (p.2.length + 28)
            + ((ps.map (frameOf key)).flatten.length + rest.length) := by
        rw [hshape2]
        simp only [List.length_append, hprelen, hmidlen]
      have hslice : jsSlice buf ((pre.length : Int) + 4)
          ((pre.length : Int) + 4 + ((p.2.length + 28 : Nat) : Int))
          = p.1 ++ aeadEncrypt key p.1 p.2 := by
        have h := jsSlice_exact (pre ++ toLE32 (p.2.length + 28))
          (p.1 ++ aeadEncrypt key p.1 p.2) ((ps.map (frameOf key)).flatten ++ rest)
        rw [← hshape2, hprelen, hmidlen] at h
        have hc1 : ((pre.length + 4 : Nat) : Int) = (pre.length : Int) + 4 := by
          push_cast; ring
        rw [hc1] at h
        exact h
      have hivs : jsSlice (p.1 ++ aeadEncrypt key p.1 p.2) 0 (IV_LENGTH : Int) = p.1 := by
        have : ((IV_LENGTH : Nat) : Int) = ((p.1.length : Nat) : Int) := by
          rw [hiv1]; rfl
        rw [this]
        exact jsSlice_front p.1 (aeadEncrypt key p.1 p.2)
      have hcts : jsSlice (p.1 ++ aeadEncrypt key p.1 p.2) (IV_LENGTH : Int)
          (((p.1 ++ aeadEncrypt key p.1 p.2).length : Nat) : Int)
          = aeadEncrypt key p.1 p.2 := by
        have : ((IV_LENGTH : Nat) : Int) = ((p.1.length : Nat) : Int) := by
          rw [hiv1]; rfl
        rw [this]
        exact jsSlice_suffix p.1 (aeadEncrypt key p.1 p.2)
      rw [decLoop]
      rw [if_pos (by omega), if_neg (by omega), if_neg (by omega)]
      simp only [Int.toNat_natCast, hread]
      rw [if_neg (by omega)]
      rw [hslice, hivs, hcts, aeadDecrypt_encrypt]
      rw [Option.elim_some]
      have hoff : (pre.length : Int) + 4 + ((p.2.length + 28 : Nat) : Int)
          = (((pre ++ frameOf key p).length : Nat) : Int) := by
        have h1 : (pre ++ frameOf key p).length = pre.length + (p.2.length + 32) := by
          simp [List.length_append, frameOf_length key p (by rw [hiv1]; rfl)]
        rw [h1]; push_cast; ring
      rw [hoff]
      have hbuf' : buf = (pre ++ frameOf key p) ++ (ps.map (frameOf key)).flatten ++ rest := by
        rw [hbuf]
        simp [List.append_assoc]
      rw [ih buf (pre ++ frameOf key p) rest f (acc ++ [p.2])
        (prog ++ [progressArg (((pre ++ frameOf key p).length : Nat) : Int) (buf.length : Int)])
        (evs ++ [Ev.decryptCall]) hbuf'
        (fun q hq => hiv q (List.mem_cons_of_mem p hq))
        (fun q hq => hpt q (List.mem_cons_of_mem p hq))
        hrest (by simp at hfuel ⊢; omega)]
      have hple : (pre ++ frameOf key p).length = pre.length + 4 + (p.2.length + 28) := by
        simp [List.length_append, frameOf_length key p (by rw [hiv1]; rfl)]
        omega
      simp only [List.map_cons, List.length_cons, List.replicate_succ, frameEnds_cons,
        hple, List.append_assoc, List.singleton_append, List.cons_append, List.nil_append]

/-! ## Closed forms of the encrypt loop -/

/-- The (IV, plaintext) pairs of the chunk loop: chunk `i` is paired
with the i-th `generateIV()` draw. -/
def pairIVs (ivs : Nat → Bytes) (i : Nat) : List Bytes → List (Bytes × Bytes)
  | [] => []
  | c :: cs => (ivs i, c) :: pairIVs ivs (i + 1) cs

theorem pairIVs_map_snd (ivs : Nat → Bytes) :
    ∀ (cs : List Bytes) (i : Nat), (pairIVs ivs i cs).map Prod.snd = cs := by
  intro cs
  induction cs with
  | nil => intro i; rfl
  | cons c cs ih =>
    intro i
    rw [pairIVs, List.map_cons, ih (i + 1)]

theorem pairIVs_fst (ivs : Nat → Bytes) :
    ∀ (cs : List Bytes) (i : Nat) (p : Bytes × Bytes), p ∈ pairIVs ivs i cs →
      (∃ j, p.1 = ivs j) ∧ p.2 ∈ cs := by
  intro cs
  induction cs with
  | nil => intro i p hp; cases hp
  | cons c cs ih =>
    intro i p hp
    rcases List.mem_cons.mp hp with rfl | hp
    · exact ⟨⟨i, rfl⟩, List.mem_cons_self _ _⟩
    · rcases ih (i + 1) p hp with ⟨h1, h2⟩
      exact ⟨h1, List.mem_cons_of_mem _ h2⟩

theorem pairIVs_length (ivs : Nat → Bytes) :
    ∀ (cs : List Bytes) (i : Nat), (pairIVs ivs i cs).length = cs.length := by
  intro cs
  induction cs with
  | nil => intro i; rfl
  | cons c cs ih => intro i; rw [pairIVs, List.length_cons, ih (i + 1)]; rfl

/-- Cumulative `processedBytes` values after each chunk. -/
def cumAfter (processed : Nat) : List Bytes → List Nat
  | [] => []
  | c :: cs => (processed + c.length) :: cumAfter (processed + c.length) cs

/-- Closed form of the encrypt chunk loop: the frames of the
(IV, chunk) pairs, and one progress value per chunk computed from the
cumulative byte count. -/
theorem encLoop_eq (key : Nat) (ivs : Nat → Bytes) (total : Nat) :
    ∀ (cs : List Bytes) (i processed : Nat),
      encLoop key ivs total cs i processed
        = ((pairIVs ivs i cs).map (frameOf key),
           (cumAfter processed cs).map
             (fun (pn : Nat) => progressArg (pn : Int) (total : Int))) := by
  intro cs
  induction cs with
  | nil => intro i processed; rfl
  | cons c cs ih =>
    intro i processed
    rw [encLoop, ih (i + 1) (processed + c.length)]
    rfl

/-- The container built by `processFileEncrypt`: header followed by
the frames of the chunks, in order. -/
theorem processFileEncrypt_out (password : Bytes) (keyFile : Option Bytes)
    (salt : Bytes) (ivs : Nat → Bytes) (data : Bytes) (hs : salt.length = 32) :
    (processFileEncrypt password keyFile salt ivs data).1
      = (FILE_MAGIC ++ [FILE_VERSION] ++ salt)
        ++ ((pairIVs ivs 0 (chunkify data)).map
            (frameOf (deriveKey (prepareKeyMaterial password keyFile) salt))).flatten := by
  simp only [processFileEncrypt, encLoop_eq, buildHeader_eq salt hs]

/-- The progress trace of `processFileEncrypt`: one value per chunk,
`min(99, round(100 · cumulativeBytes / totalBytes))`. -/
theorem processFileEncrypt_progress (password : Bytes) (keyFile : Option Bytes)
    (salt : Bytes) (ivs : Nat → Bytes) (data : Bytes) :
    (processFileEncrypt password keyFile salt ivs data).2
      = (cumAfter 0 (chunkify data)).map
          (fun (pn : Nat) => progressArg (pn : Int) (data.length : Int)) := by
  simp only [processFileEncrypt, encLoop_eq]

/-! ## Decryption of a well-formed container -/

/-- `processFileDecrypt` on a container with a valid header, the
frames of `ivpts` under the matching key, and fewer than 4 trailing
bytes: the header passes, the key is derived once, every frame is
decrypted in order, and the concatenated plaintext is returned. -/
theorem processFileDecrypt_container (password : Bytes) (keyFile : Option Bytes)
    (salt : Bytes) (ivpts : List (Bytes × Bytes)) (rest : Bytes)
    (hs : salt.length = 32)
    (hiv : ∀ p ∈ ivpts, p.1.length = IV_LENGTH)
    (hpt : ∀ p ∈ ivpts, p.2.length ≤ CHUNK_SIZE)
    (hrest : rest.length < 4) :
    processFileDecrypt password keyFile
      (FILE_MAGIC ++ [FILE_VERSION] ++ salt
        ++ (ivpts.map (frameOf (deriveKey (prepareKeyMaterial password keyFile) salt))).flatten
        ++ rest)
      = (Ev.deriveKeyCall :: List.replicate ivpts.length Ev.decryptCall,
         some (.ok ((ivpts.map Prod.snd).flatten,
           (frameEnds 38 (ivpts.map fun p => p.2.length + 28)).map
             (fun (o : Nat) => progressArg (o : Int)
               ((FILE_MAGIC ++ [FILE_VERSION] ++ salt
                 ++ (ivpts.map (frameOf (deriveKey (prepareKeyMaterial password keyFile) salt))).flatten
                 ++ rest).length : Int))))) := by
  set key := deriveKey (prepareKeyMaterial password keyFile) salt with hkey
  set buf := FILE_MAGIC ++ [FILE_VERSION] ++ salt
    ++ (ivpts.map (frameOf key)).flatten ++ rest with hbufdef
  have hcons : buf = 65 :: 69 :: 71 :: 73 :: 83 :: 2
      :: (salt ++ ((ivpts.map (frameOf key)).flatten ++ rest)) := by
    rw [hbufdef]
    simp [FILE_MAGIC, FILE_VERSION, List.append_assoc]
  have hmag : ∀ i < FILE_MAGIC.length, buf.get? i = FILE_MAGIC.get? i := by
    intro i hi
    have hi5 : i < 5 := by simpa [FILE_MAGIC] using hi
    rw [hcons]
    interval_cases i <;> rfl
  have hver : buf.get? FILE_MAGIC.length = some 2 := by
    rw [hcons]; rfl
  have hshape : buf = (FILE_MAGIC ++ [FILE_VERSION]) ++ salt
      ++ ((ivpts.map (frameOf key)).flatten ++ rest) := by
    rw [hbufdef]; simp [List.append_assoc]
  have hsalt : jsSlice buf 6 (6 + (SALT_LENGTH : Int)) = salt := by
    have h := jsSlice_exact (FILE_MAGIC ++ [FILE_VERSION]) salt
      ((ivpts.map (frameOf key)).flatten ++ rest)
    rw [← hshape] at h
    have h6 : ((FILE_MAGIC ++ [FILE_VERSION]).length : Int) = 6 := by
      simp [FILE_MAGIC]
    have h32 : ((salt.length : Nat) : Int) = (SALT_LENGTH : Int) := by
      rw [hs]; rfl
    rw [h6, h32] at h
    exact h
  have hpre : (FILE_MAGIC ++ [FILE_VERSION] ++ salt).length = 38 := by
    simp [FILE_MAGIC, hs]
  have hshape2 : buf = (FILE_MAGIC ++ [FILE_VERSION] ++ salt)
      ++ (ivpts.map (frameOf key)).flatten ++ rest := by
    rw [hbufdef]
  have hblen : buf.length
      = 38 + ((ivpts.map (frameOf key)).flatten.length + rest.length) := by
    rw [hshape2]
    simp only [List.length_append, hpre]
    omega
  have hfuel : ivpts.length < buf.length + 1 := by
    have h1 := length_le_flatten_frames key ivpts hiv
    omega
  simp only [processFileDecrypt, if_pos hmag, if_pos hver]
  rw [hsalt, ← hkey]
  rw [show (38 : Int) = (((FILE_MAGIC ++ [FILE_VERSION] ++ salt).length : Nat) : Int) from by
    rw [hpre]; rfl]
  rw [decLoop_frames key ivpts buf (FILE_MAGIC ++ [FILE_VERSION] ++ salt) rest
    (buf.length + 1) [] [] [Ev.deriveKeyCall] hshape2 hiv hpt hrest hfuel]
  simp only [List.nil_append, Option.map_some', Except.map, hpre]
  rfl

/-! ## Authentication failure on a mismatched key -/

/-- If the first frame was built under a different key, the loop fails
with the generic decryption error at that frame, whatever follows. -/
theorem decLoop_wrong_key (key₁ key₂ : Nat) (buf pre rest : Bytes) (p : Bytes × Bytes)
    (fuel : Nat) (acc : List Bytes) (prog : List Int) (evs : List Ev)
    (hbuf : buf = pre ++ frameOf key₁ p ++ rest)
    (hiv1 : p.1.length = 12) (hpt1 : p.2.length ≤ CHUNK_SIZE)
    (hk : key₁ ≠ key₂) :
    decLoop key₂ buf (fuel + 1) (pre.length : Int) acc prog evs
      = (evs ++ [Ev.decryptCall], some (.error .decryptFailed)) := by
  have hL31 : p.2.length + 28 < 2 ^ 31 := by
    have : CHUNK_SIZE = 1048576 := by norm_num [CHUNK_SIZE]
    omega
  have hframe : frameOf key₁ p
      = toLE32 (p.2.length + 28) ++ (p.1 ++ aeadEncrypt key₁ p.1 p.2) := by
    rw [frameOf, packageChunk, aeadEncrypt_length key₁ p.1 p.2, hiv1]
    rw [show 12 + (p.2.length + 16) = p.2.length + 28 from by omega]
    simp [List.append_assoc]
  have hshape1 : buf
      = pre ++ (toLE32 (p.2.length + 28)
          ++ ((p.1 ++ aeadEncrypt key₁ p.1 p.2) ++ rest)) := by
    rw [hbuf, hframe]
    simp [List.append_assoc]
  have hshape2 : buf
      = (pre ++ toLE32 (p.2.length + 28))
        ++ (p.1 ++ aeadEncrypt key₁ p.1 p.2) ++ rest := by
    rw [hshape1]; simp [List.append_assoc]
  have hread : readInt32LE buf pre.length = ((p.2.length + 28 : Nat) : Int) := by
    rw [hshape1]
    exact readInt32LE_at pre (p.2.length + 28) _ hL31
  have hmidlen : (p.1 ++ aeadEncrypt key₁ p.1 p.2).length = p.2.length + 28 := by
    rw [List.length_append, aeadEncrypt_length, hiv1]
    omega
  have hprelen : (pre ++ toLE32 (p.2.length + 28)).length = pre.length + 4 := by
    rw [List.length_append, toLE32_length]
  have hblen : buf.length
      = pre.length + 4 + (p.2.length + 28) + rest.length := by
    rw [hshape2]
    simp only [List.length_append, hprelen, hmidlen]
  have hslice : jsSlice buf ((pre.length : Int) + 4)
      ((pre.length : Int) + 4 + ((p.2.length + 28 : Nat) : Int))
      = p.1 ++ aeadEncrypt key₁ p.1 p.2 := by
    have h := jsSlice_exact (pre ++ toLE32 (p.2.length + 28))
      (p.1 ++ aeadEncrypt key₁ p.1 p.2) rest
    rw [← hshape2, hprelen, hmidlen] at h
    have hc1 : ((pre.length + 4 : Nat) : Int) = (pre.length : Int) + 4 := by
      push_cast; ring
    rw [hc1] at h
    exact h
  have hivs : jsSlice (p.1 ++ aeadEncrypt key₁ p.1 p.2) 0 (IV_LENGTH : Int) = p.1 := by
    have h12 : ((IV_LENGTH : Nat) : Int) = ((p.1.length : Nat) : Int) := by
      rw [hiv1]; rfl
    rw [h12]
    exact jsSlice_front p.1 (aeadEncrypt key₁ p.1 p.2)
  have hcts : jsSlice (p.1 ++ aeadEncrypt key₁ p.1 p.2) (IV_LENGTH : Int)
      (((p.1 ++ aeadEncrypt key₁ p.1 p.2).length : Nat) : Int)
      = aeadEncrypt key₁ p.1 p.2 := by
    have h12 : ((IV_LENGTH : Nat) : Int) = ((p.1.length : Nat) : Int) := by
      rw [hiv1]; rfl
    rw [h12]
    exact jsSlice_suffix p.1 (aeadEncrypt key₁ p.1 p.2)
  rw [decLoop]
  rw [if_pos (by omega), if_neg (by omega), if_neg (by omega)]
  simp only [Int.toNat_natCast, hread]
  rw [if_neg (by omega)]
  rw [hslice, hivs, hcts, aeadDecrypt_wrong_key key₁ key₂ p.1 p.1 p.2 hk]
  rw [Option.elim_none]

/-- Decrypting a container whose first frame was built under a
different key than the one derived from the supplied credential fails
with the generic decryption error. -/
theorem processFileDecrypt_wrong_key (password : Bytes) (keyFile : Option Bytes)
    (salt : Bytes) (key₁ : Nat) (p : Bytes × Bytes) (rest : Bytes)
    (hs : salt.length = 32) (hiv1 : p.1.length = 12) (hpt1 : p.2.length ≤ CHUNK_SIZE)
    (hk : key₁ ≠ deriveKey (prepareKeyMaterial password keyFile) salt) :
    processFileDecrypt password keyFile
      (FILE_MAGIC ++ [FILE_VERSION] ++ salt ++ frameOf key₁ p ++ rest)
      = ([Ev.deriveKeyCall, Ev.decryptCall], some (.error .decryptFailed)) := by
  set buf := FILE_MAGIC ++ [FILE_VERSION] ++ salt ++ frameOf key₁ p ++ rest with hbufdef
  have hcons : buf = 65 :: 69 :: 71 :: 73 :: 83 :: 2
      :: (salt ++ (frameOf key₁ p ++ rest)) := by
    rw [hbufdef]
    simp [FILE_MAGIC, FILE_VERSION, List.append_assoc]
  have hmag : ∀ i < FILE_MAGIC.length, buf.get? i = FILE_MAGIC.get? i := by
    intro i hi
    have hi5 : i < 5 := by simpa [FILE_MAGIC] using hi
    rw [hcons]
    interval_cases i <;> rfl
  have hver : buf.get? FILE_MAGIC.length = some 2 := by
    rw [hcons]; rfl
  have hshape : buf = (FILE_MAGIC ++ [FILE_VERSION]) ++ salt
      ++ (frameOf key₁ p ++ rest) := by
    rw [hbufdef]; simp [List.append_assoc]
  have hsalt : jsSlice buf 6 (6 + (SALT_LENGTH : Int)) = salt := by
    have h := jsSlice_exact (FILE_MAGIC ++ [FILE_VERSION]) salt (frameOf key₁ p ++ rest)
    rw [← hshape] at h
    have h6 : ((FILE_MAGIC ++ [FILE_VERSION]).length : Int) = 6 := by
      simp [FILE_MAGIC]
    have h32 : ((salt.length : Nat) : Int) = (SALT_LENGTH : Int) := by
      rw [hs]; rfl
    rw [h6, h32] at h
    exact h
  have hpre : (FILE_MAGIC ++ [FILE_VERSION] ++ salt).length = 38 := by
    simp [FILE_MAGIC, hs]
  have hshape2 : buf = (FILE_MAGIC ++ [FILE_VERSION] ++ salt)
      ++ frameOf key₁ p ++ rest := by
    rw [hbufdef]
  simp only [processFileDecrypt, if_pos hmag, if_pos hver]
  rw [hsalt]
  rw [show (38 : Int) = (((FILE_MAGIC ++ [FILE_VERSION] ++ salt).length : Nat) : Int) from by
    rw [hpre]; rfl]
  rw [show buf.length + 1 = buf.length + 1 from rfl]
  rw [decLoop_wrong_key key₁ (deriveKey (prepareKeyMaterial password keyFile) salt)
    buf (FILE_MAGIC ++ [FILE_VERSION] ++ salt) rest p buf.length [] [] [Ev.deriveKeyCall]
    hshape2 hiv1 hpt1 hk]
  rfl

/-! ## Helpers for instantiating the frame lemmas with the encrypt loop -/

theorem pairIVs_iv_length (ivs : Nat → Bytes) (hiv : ∀ i, (ivs i).length = 12)
    (cs : List Bytes) (i : Nat) :
    ∀ p ∈ pairIVs ivs i cs, p.1.length = IV_LENGTH := by
  intro p hp
  rcases (pairIVs_fst ivs cs i p hp).1 with ⟨j, hj⟩
  rw [hj, hiv j]
  rfl

theorem pairIVs_chunk_le (data : Bytes) (ivs : Nat → Bytes) (i : Nat) :
    ∀ p ∈ pairIVs ivs i (chunkify data), p.2.length ≤ CHUNK_SIZE := by
  intro p hp
  exact chunkify_le data p.2 (pairIVs_fst ivs (chunkify data) i p hp).2

theorem pairIVs_lens (ivs : Nat → Bytes) (cs : List Bytes) (i : Nat) :
    (pairIVs ivs i cs).map (fun p => p.2.length + 28)
      = cs.map (fun c => c.length + 28) := by
  rw [show (fun p : Bytes × Bytes => p.2.length + 28)
      = ((fun c : Bytes => c.length + 28) ∘ Prod.snd) from rfl]
  rw [← List.map_map, pairIVs_map_snd]

/-! ## Claims -/

/-- C1: for every byte sequence P (including the empty one) and every
credential (password plus optional keyfile), decrypting with
`processFileDecrypt` the container produced by `processFileEncrypt`
under the same credential returns exactly P; in particular an empty
source yields a header-only container (magic ‖ version ‖ salt, zero
chunk frames), whose decryption succeeds with zero bytes rather than
an error. -/
theorem claim1_roundtrip (password : Bytes) (keyFile : Option Bytes)
    (salt : Bytes) (ivs : Nat → Bytes) (data : Bytes)
    (hs : salt.length = 32) (hiv : ∀ i, (ivs i).length = 12) :
    decryptResult password keyFile
        (processFileEncrypt password keyFile salt ivs data).1 = some (.ok data)
    ∧ (processFileEncrypt password keyFile salt ivs []).1
        = FILE_MAGIC ++ [FILE_VERSION] ++ salt := by
  constructor
  · have hout : (processFileEncrypt password keyFile salt ivs data).1
        = FILE_MAGIC ++ [FILE_VERSION] ++ salt
          ++ ((pairIVs ivs 0 (chunkify data)).map
              (frameOf (deriveKey (prepareKeyMaterial password keyFile) salt))).flatten
          ++ [] := by
      rw [processFileEncrypt_out password keyFile salt ivs data hs]
      simp [List.append_assoc]
    rw [decryptResult, hout]
    rw [processFileDecrypt_container password keyFile salt (pairIVs ivs 0 (chunkify data)) []
      hs (pairIVs_iv_length ivs hiv (chunkify data) 0) (pairIVs_chunk_le data ivs 0)
      (by norm_num)]
    simp only [Option.map_some', Except.map]
    rw [pairIVs_map_snd, chunkify_join]
  · rw [processFileEncrypt_out password keyFile salt ivs [] hs, chunkify_nil]
    simp [pairIVs]

/-- Witness for C1 at a concrete input. -/
theorem claim1_roundtrip_witness :
    decryptResult [112] none
        (processFileEncrypt [112] none (List.replicate 32 7)
          (fun _ => List.replicate 12 3) [1, 2, 3]).1 = some (.ok [1, 2, 3])
    ∧ (processFileEncrypt [112] none (List.replicate 32 7)
          (fun _ => List.replicate 12 3) []).1
        = FILE_MAGIC ++ [FILE_VERSION] ++ List.replicate 32 7 :=
  claim1_roundtrip [112] none (List.replicate 32 7) (fun _ => List.replicate 12 3)
    [1, 2, 3] (by decide) (fun _ => rfl)

/-- C4: the container produced by `processFileEncrypt` is exactly
Magic("AEGIS") ‖ Version ‖ Salt followed by one frame per ≤1 MiB input
slice in order; each frame is Length(4 bytes little-endian) ‖ IV ‖
Ciphertext‖Tag with Length = len(IV) + len(Ciphertext‖Tag), every IV is
12 bytes, the frames' plaintexts are exactly the input slices, and the
output length is the header length plus Σ (4 + Length) over frames. -/
theorem claim4_container_layout (password : Bytes) (keyFile : Option Bytes)
    (salt : Bytes) (ivs : Nat → Bytes) (data : Bytes)
    (hs : salt.length = 32) (hiv : ∀ i, (ivs i).length = 12) :
    (processFileEncrypt password keyFile salt ivs data).1
      = FILE_MAGIC ++ [FILE_VERSION] ++ salt
        ++ ((pairIVs ivs 0 (chunkify data)).map
            (fun q => toLE32 (q.1.length
                + (aeadEncrypt (deriveKey (prepareKeyMaterial password keyFile) salt)
                    q.1 q.2).length)
              ++ q.1
              ++ aeadEncrypt (deriveKey (prepareKeyMaterial password keyFile) salt)
                  q.1 q.2)).flatten
    ∧ (∀ q ∈ pairIVs ivs 0 (chunkify data), q.1.length = 12)
    ∧ (pairIVs ivs 0 (chunkify data)).map Prod.snd = chunkify data
      ∧ (chunkify data).flatten = data
    ∧ (processFileEncrypt password keyFile salt ivs data).1.length
      = HEADER_LENGTH
        + ((pairIVs ivs 0 (chunkify data)).map
            (fun q => 4 + (q.1.length
                + (aeadEncrypt (deriveKey (prepareKeyMaterial password keyFile) salt)
                    q.1 q.2).length))).sum := by
  have hout := processFileEncrypt_out password keyFile salt ivs data hs
  refine ⟨hout, ?_, pairIVs_map_snd ivs (chunkify data) 0, chunkify_join data, ?_⟩
  · intro q hq
    exact pairIVs_iv_length ivs hiv (chunkify data) 0 q hq
  · rw [hout]
    simp only [List.length_append, List.length_flatten, List.map_map]
    have hmap : ∀ q ∈ pairIVs ivs 0 (chunkify data),
        (List.length ∘ frameOf (deriveKey (prepareKeyMaterial password keyFile) salt)) q
          = (fun q : Bytes × Bytes => 4 + (q.1.length
              + (aeadEncrypt (deriveKey (prepareKeyMaterial password keyFile) salt)
                  q.1 q.2).length)) q := by
      intro q hq
      simp [frameOf, packageChunk_length]
      omega
    rw [List.map_congr_left hmap]
    simp [FILE_MAGIC, HEADER_LENGTH, SALT_LENGTH, hs]

/-- Witness for C4 at a concrete input. -/
theorem claim4_container_layout_witness :
    (processFileEncrypt [9] none (List.replicate 32 1)
        (fun _ => List.replicate 12 4) [5, 6]).1
      = FILE_MAGIC ++ [FILE_VERSION] ++ List.replicate 32 1
        ++ ((pairIVs (fun _ => List.replicate 12 4) 0 (chunkify [5, 6])).map
            (fun q => toLE32 (q.1.length
                + (aeadEncrypt (deriveKey (prepareKeyMaterial [9] none)
                    (List.replicate 32 1)) q.1 q.2).length)
              ++ q.1
              ++ aeadEncrypt (deriveKey (prepareKeyMaterial [9] none)
                  (List.replicate 32 1)) q.1 q.2)).flatten
    ∧ (∀ q ∈ pairIVs (fun _ => List.replicate 12 4) 0 (chunkify [5, 6]), q.1.length = 12)
    ∧ (pairIVs (fun _ => List.replicate 12 4) 0 (chunkify [5, 6])).map Prod.snd
        = chunkify [5, 6]
      ∧ (chunkify [5, 6]).flatten = [5, 6]
    ∧ (processFileEncrypt [9] none (List.replicate 32 1)
        (fun _ => List.replicate 12 4) [5, 6]).1.length
      = HEADER_LENGTH
        + ((pairIVs (fun _ => List.replicate 12 4) 0 (chunkify [5, 6])).map
            (fun q => 4 + (q.1.length
                + (aeadEncrypt (deriveKey (prepareKeyMaterial [9] none)
                    (List.replicate 32 1)) q.1 q.2).length))).sum :=
  claim4_container_layout [9] none (List.replicate 32 1) (fun _ => List.replicate 12 4)
    [5, 6] (by decide) (fun _ => rfl)

/-- C5: any buffer whose first 5 bytes are the AEGIS magic but whose
6th byte is a version other than 2 is rejected by `processFileDecrypt`
with a version-mismatch error carrying the version actually found,
whatever the remaining bytes are; no key derivation or decrypt call
happens. -/
theorem claim5_version_rejection (password : Bytes) (keyFile : Option Bytes)
    (buf : Bytes) (v : Nat)
    (hmag : ∀ i < FILE_MAGIC.length, buf.get? i = FILE_MAGIC.get? i)
    (hv : buf.get? FILE_MAGIC.length = some v) (hne : v ≠ 2) :
    processFileDecrypt password keyFile buf
      = ([], some (.error (.versionMismatch (some v)))) := by
  simp only [processFileDecrypt, if_pos hmag]
  rw [if_neg (show ¬ buf.get? FILE_MAGIC.length = some 2 from by
    rw [hv]; simp [hne])]
  rw [hv]

/-- Witness for C5 at a concrete input. -/
theorem claim5_version_rejection_witness :
    processFileDecrypt [] none [65, 69, 71, 73, 83, 7]
      = ([], some (.error (.versionMismatch (some 7)))) :=
  claim5_version_rejection [] none [65, 69, 71, 73, 83, 7] 7 (by decide) rfl (by decide)

/-- C7: whenever header validation fails (magic mismatch or version
byte other than 2), `processFileDecrypt` returns the format error with
an empty event trace: the key-derivation call (and every decrypt call)
is never reached. -/
theorem claim7_no_derive_on_bad_header (password : Bytes) (keyFile : Option Bytes)
    (buf : Bytes)
    (h : ¬ (∀ i < FILE_MAGIC.length, buf.get? i = FILE_MAGIC.get? i)
         ∨ buf.get? FILE_MAGIC.length ≠ some 2) :
    (processFileDecrypt password keyFile buf).1 = []
    ∧ ((processFileDecrypt password keyFile buf).2 = some (.error .invalidMagic)
       ∨ (processFileDecrypt password keyFile buf).2
           = some (.error (.versionMismatch (buf.get? FILE_MAGIC.length)))) := by
  by_cases hm : ∀ i < FILE_MAGIC.length, buf.get? i = FILE_MAGIC.get? i
  · have hv : ¬ buf.get? FILE_MAGIC.length = some 2 := by
      rcases h with h | h
      · exact absurd hm h
      · exact h
    refine ⟨?_, Or.inr ?_⟩ <;> simp only [processFileDecrypt, if_pos hm, if_neg hv]
  · refine ⟨?_, Or.inl ?_⟩ <;> simp only [processFileDecrypt, if_neg hm]

/-- Witness for C7 at a concrete input. -/
theorem claim7_no_derive_on_bad_header_witness :
    (processFileDecrypt [] none [0]).1 = []
    ∧ ((processFileDecrypt [] none [0]).2 = some (.error .invalidMagic)
       ∨ (processFileDecrypt [] none [0]).2
           = some (.error (.versionMismatch (List.get? [0] FILE_MAGIC.length)))) :=
  claim7_no_derive_on_bad_header [] none [0] (Or.inl (by decide))

/-- C9: a buffer that starts with the magic and the supported version
byte but is shorter than the 38-byte header is not rejected:
`processFileDecrypt` slices whatever salt bytes are present (fewer
than 32), derives a key from that short salt (the derive event fires),
and — as no byte remains at or beyond offset 38 — returns an empty
byte sequence successfully instead of an error. -/
theorem claim9_short_header_accepted (password : Bytes) (keyFile : Option Bytes)
    (buf : Bytes)
    (hmag : ∀ i < FILE_MAGIC.length, buf.get? i = FILE_MAGIC.get? i)
    (hv : buf.get? FILE_MAGIC.length = some 2)
    (hshort : buf.length < HEADER_LENGTH) :
    processFileDecrypt password keyFile buf = ([Ev.deriveKeyCall], some (.ok ([], [])))
    ∧ (jsSlice buf 6 (6 + (SALT_LENGTH : Int))).length = buf.length - 6 := by
  have h38 : HEADER_LENGTH = 38 := rfl
  have h6 : 5 < buf.length := by
    by_contra hc
    push_neg at hc
    have h5 : FILE_MAGIC.length = 5 := rfl
    rw [h5] at hv
    rw [List.get?_eq_none.mpr hc] at hv
    exact Option.noConfusion hv
  constructor
  · simp only [processFileDecrypt, if_pos hmag, if_pos hv]
    rw [decLoop]
    rw [if_neg (show ¬ ((38 : Int) < (buf.length : Int)) from by omega)]
    rfl
  · have hs1 : jsClamp (buf.length : Int) 6 = 6 := by
      rw [jsClamp, if_neg (by norm_num)]
      rw [show ((6 : Int)).toNat = 6 from rfl, Int.toNat_natCast]
      omega
    have hs2 : jsClamp (buf.length : Int) (6 + (SALT_LENGTH : Int)) = buf.length := by
      rw [jsClamp, if_neg (by norm_num [SALT_LENGTH])]
      rw [show ((6 + (SALT_LENGTH : Int))).toNat = 38 from rfl, Int.toNat_natCast]
      omega
    rw [jsSlice]
    simp only [hs1, hs2]
    by_cases he : buf.length ≤ 6
    · rw [if_pos (by omega)]
      simp
      omega
    · rw [if_neg (by omega)]
      rw [List.take_length]
      simp [List.length_drop]

/-- Witness for C9 at a concrete input (an 8-byte buffer). -/
theorem claim9_short_header_accepted_witness :
    processFileDecrypt [] none [65, 69, 71, 73, 83, 2, 1, 2]
        = ([Ev.deriveKeyCall], some (.ok ([], [])))
    ∧ (jsSlice [65, 69, 71, 73, 83, 2, 1, 2] 6 (6 + (SALT_LENGTH : Int))).length
        = List.length [65, 69, 71, 73, 83, 2, 1, 2] - 6 :=
  claim9_short_header_accepted [] none [65, 69, 71, 73, 83, 2, 1, 2]
    (by decide) rfl (by decide)

/-- C10: a buffer made of a valid header, zero or more well-formed
frames, and 1 to 3 trailing bytes (too few to hold a length field) is
decrypted successfully: the loop silently stops at the trailing bytes
and the concatenated plaintext of the complete frames is returned. -/
theorem claim10_trailing_bytes_ignored (password : Bytes) (keyFile : Option Bytes)
    (salt : Bytes) (ivpts : List (Bytes × Bytes)) (trailing : Bytes)
    (hs : salt.length = 32)
    (hiv : ∀ p ∈ ivpts, p.1.length = IV_LENGTH)
    (hpt : ∀ p ∈ ivpts, p.2.length ≤ CHUNK_SIZE)
    (h1 : 1 ≤ trailing.length) (h3 : trailing.length ≤ 3) :
    ∃ pr, (processFileDecrypt password keyFile
        (FILE_MAGIC ++ [FILE_VERSION] ++ salt
          ++ (ivpts.map (frameOf (deriveKey (prepareKeyMaterial password keyFile) salt))).flatten
          ++ trailing)).2
      = some (.ok ((ivpts.map Prod.snd).flatten, pr)) := by
  refine ⟨(frameEnds 38 (ivpts.map fun p => p.2.length + 28)).map
    (fun (o : Nat) => progressArg (o : Int)
      ((FILE_MAGIC ++ [FILE_VERSION] ++ salt
        ++ (ivpts.map (frameOf (deriveKey (prepareKeyMaterial password keyFile) salt))).flatten
        ++ trailing).length : Int)), ?_⟩
  rw [processFileDecrypt_container password keyFile salt ivpts trailing hs hiv hpt
    (by omega)]

/-- Witness for C10 at a concrete input (zero frames, two trailing
bytes). -/
theorem claim10_trailing_bytes_ignored_witness :
    ∃ pr, (processFileDecrypt [] none
        (FILE_MAGIC ++ [FILE_VERSION] ++ List.replicate 32 0
          ++ (([] : List (Bytes × Bytes)).map
              (frameOf (deriveKey (prepareKeyMaterial [] none) (List.replicate 32 0)))).flatten
          ++ [9, 9])).2
      = some (.ok ((([] : List (Bytes × Bytes)).map Prod.snd).flatten, pr)) :=
  claim10_trailing_bytes_ignored [] none (List.replicate 32 0) [] [9, 9]
    (by decide) (by simp) (by simp) (by decide) (by decide)

/-- C2 (evaluation of the code at the failing input): on a container
whose single frame declares the signed length −1, `processFileDecrypt`
does not fail with the truncation error before slicing: the negative
length passes the only bounds check (`offset + 4 + L > length` is false
for a negative L), an empty chunk is sliced, a decrypt call is
performed, and the generic decryption error is thrown instead of the
truncated/corrupt one — the negative/too-short length checks claimed
by the spec are absent from the code. -/
theorem claim2_code_eval :
    readInt32LE
        (FILE_MAGIC ++ [FILE_VERSION] ++ List.replicate 32 0 ++ [255, 255, 255, 255]) 38
      = -1
    ∧ processFileDecrypt [] none
        (FILE_MAGIC ++ [FILE_VERSION] ++ List.replicate 32 0 ++ [255, 255, 255, 255])
      = ([Ev.deriveKeyCall, Ev.decryptCall], some (.error .decryptFailed))
    ∧ Err.decryptFailed ≠ Err.unexpectedEOF := by
  refine ⟨by decide, ?_, by decide⟩
  rfl

/-- C6 (counterexample): with two keyfiles of different SHA-256
digests, the container of the EMPTY plaintext encrypted under
(password, keyfile A) decrypts SUCCESSFULLY under (password, keyfile B)
and under (password, no keyfile) — zero frames, nothing authenticated —
contradicting the claim that such decryptions always fail with an
authentication error. -/
theorem claim6_counterexample :
    sha256 [1] ≠ sha256 [2]
    ∧ decryptResult [5] (some [2])
        (processFileEncrypt [5] (some [1]) (List.replicate 32 0)
          (fun _ => List.replicate 12 0) []).1
      = some (.ok [])
    ∧ decryptResult [5] none
        (processFileEncrypt [5] (some [1]) (List.replicate 32 0)
          (fun _ => List.replicate 12 0) []).1
      = some (.ok []) := by
  refine ⟨by decide, ?_, ?_⟩ <;> rfl

/-- C6 (amended): the key-derivation input is the password bytes alone
when no keyfile is supplied, and the password bytes followed by the
32-byte SHA-256 digest of the keyfile otherwise; consequently, for a
NONEMPTY plaintext, decrypting a container encrypted with (P, keyfile
A) using (P, keyfile B) of different digest, or using (P, no keyfile),
fails with the generic decryption/authentication error.  (A zero-frame
container — empty plaintext — decrypts successfully under any
credential, which forces the nonemptiness proviso.) -/
theorem claim6_keyfile_binding (password A B : Bytes) (salt : Bytes)
    (ivs : Nat → Bytes) (data : Bytes)
    (hAB : sha256 A ≠ sha256 B) (hs : salt.length = 32)
    (hiv : ∀ i, (ivs i).length = 12) (hne : data ≠ []) :
    (prepareKeyMaterial password none = password
      ∧ prepareKeyMaterial password (some A) = password ++ sha256 A)
    ∧ decryptResult password (some B)
        (processFileEncrypt password (some A) salt ivs data).1
      = some (.error .decryptFailed)
    ∧ decryptResult password none
        (processFileEncrypt password (some A) salt ivs data).1
      = some (.error .decryptFailed) := by
  have hchunk : chunkify data = data.take CHUNK_SIZE :: chunkify (data.drop CHUNK_SIZE) :=
    chunkify_cons data hne
  have hout := processFileEncrypt_out password (some A) salt ivs data hs
  rw [hchunk] at hout
  rw [pairIVs, List.map_cons, List.flatten_cons] at hout
  have hshape : (processFileEncrypt password (some A) salt ivs data).1
      = FILE_MAGIC ++ [FILE_VERSION] ++ salt
        ++ frameOf (deriveKey (prepareKeyMaterial password (some A)) salt)
            (ivs 0, data.take CHUNK_SIZE)
        ++ ((pairIVs ivs 1 (chunkify (data.drop CHUNK_SIZE))).map
            (frameOf (deriveKey (prepareKeyMaterial password (some A)) salt))).flatten := by
    rw [hout]
    simp [List.append_assoc]
  have hivlen : ((ivs 0, data.take CHUNK_SIZE) : Bytes × Bytes).1.length = 12 := hiv 0
  have hptlen : ((ivs 0, data.take CHUNK_SIZE) : Bytes × Bytes).2.length ≤ CHUNK_SIZE :=
    List.length_take_le _ _
  have hkB : deriveKey (prepareKeyMaterial password (some A)) salt
      ≠ deriveKey (prepareKeyMaterial password (some B)) salt := by
    intro h
    have h2 := (deriveKey_inj _ _ _ _ h).1
    simp only [prepareKeyMaterial] at h2
    exact hAB (List.append_cancel_left h2)
  have hk0 : deriveKey (prepareKeyMaterial password (some A)) salt
      ≠ deriveKey (prepareKeyMaterial password none) salt := by
    intro h
    have h2 := (deriveKey_inj _ _ _ _ h).1
    simp only [prepareKeyMaterial] at h2
    have := congrArg List.length h2
    simp [sha256_length] at this
  refine ⟨⟨rfl, rfl⟩, ?_, ?_⟩
  · rw [decryptResult, hshape]
    rw [processFileDecrypt_wrong_key password (some B) salt
      (deriveKey (prepareKeyMaterial password (some A)) salt)
      (ivs 0, data.take CHUNK_SIZE) _ hs hivlen hptlen hkB]
    rfl
  · rw [decryptResult, hshape]
    rw [processFileDecrypt_wrong_key password none salt
      (deriveKey (prepareKeyMaterial password (some A)) salt)
      (ivs 0, data.take CHUNK_SIZE) _ hs hivlen hptlen hk0]
    rfl

/-- Witness for the amended C6 at a concrete input. -/
theorem claim6_keyfile_binding_witness :
    (prepareKeyMaterial [5] none = [5]
      ∧ prepareKeyMaterial [5] (some [1]) = [5] ++ sha256 [1])
    ∧ decryptResult [5] (some [2])
        (processFileEncrypt [5] (some [1]) (List.replicate 32 0)
          (fun _ => List.replicate 12 0) [9]).1
      = some (.error .decryptFailed)
    ∧ decryptResult [5] none
        (processFileEncrypt [5] (some [1]) (List.replicate 32 0)
          (fun _ => List.replicate 12 0) [9]).1
      = some (.error .decryptFailed) :=
  claim6_keyfile_binding [5] [1] [2] (List.replicate 32 0) (fun _ => List.replicate 12 0)
    [9] (by decide) (by decide) (fun _ => rfl) (by decide)

/-- C8 (counterexample): encrypting a 2-byte file produces exactly one
progress callback whose argument is 99 — the capped rounded
percentage — while the cumulative number of bytes processed after that
chunk is 2, so the callback does not receive the cumulative byte
count. -/
theorem claim8_counterexample :
    (processFileEncrypt [] none (List.replicate 32 7)
        (fun _ => List.replicate 12 3) [7, 7]).2 = [99]
    ∧ cumAfter 0 (chunkify [7, 7]) = [2]
    ∧ (99 : Int) ≠ ((2 : Nat) : Int) := by
  refine ⟨by decide, by decide, by decide⟩

/-- C8 (amended): the progress callback is invoked once after each
processed chunk/frame, but its argument is the capped percentage
`min(99, round(100·progress/total))` — cumulative input bytes over the
file size for encrypt, the container offset past the frame over the
container length for decrypt — not the cumulative byte count itself. -/
theorem claim8_progress_percentages (password : Bytes) (keyFile : Option Bytes)
    (salt : Bytes) (ivs : Nat → Bytes) (data : Bytes)
    (hs : salt.length = 32) (hiv : ∀ i, (ivs i).length = 12) :
    (processFileEncrypt password keyFile salt ivs data).2
      = (cumAfter 0 (chunkify data)).map
          (fun (pn : Nat) => progressArg (pn : Int) (data.length : Int))
    ∧ (processFileDecrypt password keyFile
        (processFileEncrypt password keyFile salt ivs data).1).2
      = some (.ok (data,
          (frameEnds 38 ((chunkify data).map (fun c => c.length + 28))).map
            (fun (o : Nat) => progressArg (o : Int)
              (((processFileEncrypt password keyFile salt ivs data).1.length : Nat) : Int)))) := by
  constructor
  · exact processFileEncrypt_progress password keyFile salt ivs data
  · have hout : (processFileEncrypt password keyFile salt ivs data).1
        = FILE_MAGIC ++ [FILE_VERSION] ++ salt
          ++ ((pairIVs ivs 0 (chunkify data)).map
              (frameOf (deriveKey (prepareKeyMaterial password keyFile) salt))).flatten
          ++ [] := by
      rw [processFileEncrypt_out password keyFile salt ivs data hs]
      simp [List.append_assoc]
    rw [hout]
    rw [processFileDecrypt_container password keyFile salt (pairIVs ivs 0 (chunkify data)) []
      hs (pairIVs_iv_length ivs hiv (chunkify data) 0) (pairIVs_chunk_le data ivs 0)
      (by norm_num)]
    rw [pairIVs_map_snd, chunkify_join, pairIVs_lens]

/-- Witness for the amended C8 at a concrete input. -/
theorem claim8_progress_percentages_witness :
    (processFileEncrypt [] none (List.replicate 32 7)
        (fun _ => List.replicate 12 3) [7, 7]).2
      = (cumAfter 0 (chunkify [7, 7])).map
          (fun (pn : Nat) => progressArg (pn : Int) ((List.length [7, 7] : Nat) : Int))
    ∧ (processFileDecrypt [] none
        (processFileEncrypt [] none (List.replicate 32 7)
          (fun _ => List.replicate 12 3) [7, 7]).1).2
      = some (.ok ([7, 7],
          (frameEnds 38 ((chunkify [7, 7]).map (fun c => c.length + 28))).map
            (fun (o : Nat) => progressArg (o : Int)
              (((processFileEncrypt [] none (List.replicate 32 7)
                  (fun _ => List.replicate 12 3) [7, 7]).1.length : Nat) : Int)))) :=
  claim8_progress_percentages [] none (List.replicate 32 7)
    (fun _ => List.replicate 12 3) [7, 7] (by decide) (fun _ => rfl)

/-! ## C3: cancellation (spec-modelled) -/

theorem encryptCancelLoop_cancelled (cancel : Nat → Bool) (key : Nat)
    (ivs : Nat → Bytes) (total : Nat) :
    ∀ (cs : List Bytes) (i processed : Nat),
      (∃ k, k < cs.length ∧ cancel (i + k) = true) →
      encryptCancelLoop cancel key ivs total cs i processed = .error .cancelled := by
  intro cs
  induction cs with
  | nil =>
    rintro i processed ⟨k, hk, _⟩
    exact absurd hk (Nat.not_lt_zero k)
  | cons c cs ih =>
    rintro i processed ⟨k, hk, hc⟩
    by_cases h0 : cancel i = true
    · rw [encryptCancelLoop, if_pos h0]
    · rw [encryptCancelLoop, if_neg h0]
      cases k with
      | zero =>
        rw [Nat.add_zero] at hc
        exact absurd hc h0
      | succ m =>
        rw [ih (i + 1) (processed + c.length)
          ⟨m, by simpa using hk, by rw [show i + 1 + m = i + (m + 1) from by omega]; exact hc⟩]

/-- On a well-formed container tail, if the token is signaled at any
frame index `idx + k` with `k` below the number of remaining frames,
the cancel-aware decrypt loop decrypts the frames before that index
and then fails with `CancelledError`, discarding everything. -/
theorem decryptCancelLoop_cancelled (cancel : Nat → Bool) (key : Nat) :
    ∀ (ivpts : List (Bytes × Bytes)) (buf pre rest : Bytes)
      (fuel idx : Nat) (acc : List Bytes),
      buf = pre ++ (ivpts.map (frameOf key)).flatten ++ rest →
      (∀ p ∈ ivpts, p.1.length = IV_LENGTH) →
      (∀ p ∈ ivpts, p.2.length ≤ CHUNK_SIZE) →
      rest.length < 4 →
      ivpts.length < fuel →
      (∃ k, k < ivpts.length ∧ cancel (idx + k) = true) →
      decryptCancelLoop cancel key buf fuel (pre.length : Int) idx acc
        = some (.error .cancelled) := by
  intro ivpts
  induction ivpts with
  | nil =>
    rintro buf pre rest fuel idx acc _ _ _ _ _ ⟨k, hk, _⟩
    exact absurd hk (Nat.not_lt_zero k)
  | cons p ps ih =>
    rintro buf pre rest fuel idx acc hbuf hiv hpt hrest hfuel ⟨k, hk, hc⟩
    cases fuel with
    | zero => simp at hfuel
    | succ f =>
      have hiv1 : p.1.length = 12 := hiv p (List.mem_cons_self p ps)
      have hpt1 : p.2.length ≤ CHUNK_SIZE := hpt p (List.mem_cons_self p ps)
      have hL31 : p.2.length + 28 < 2 ^ 31 := by
        have : CHUNK_SIZE = 1048576 := by norm_num [CHUNK_SIZE]
        omega
      have hframe : frameOf key p
          = toLE32 (p.2.length + 28) ++ (p.1 ++ aeadEncrypt key p.1 p.2) := by
        rw [frameOf, packageChunk, aeadEncrypt_length key p.1 p.2, hiv1]
        rw [show 12 + (p.2.length + 16) = p.2.length + 28 from by omega]
        simp [List.append_assoc]
      have hshape1 : buf
          = pre ++ (toLE32 (p.2.length + 28)
              ++ ((p.1 ++ aeadEncrypt key p.1 p.2)
                  ++ ((ps.map (frameOf key)).flatten ++ rest))) := by
        rw [hbuf]
        simp only [List.map_cons, List.flatten_cons, hframe]
        simp [List.append_assoc]
      have hshape2 : buf
          = (pre ++ toLE32 (p.2.length + 28))
            ++ (p.1 ++ aeadEncrypt key p.1 p.2)
            ++ ((ps.map (frameOf key)).flatten ++ rest) := by
        rw [hshape1]; simp [List.append_assoc]
      have hread : readInt32LE buf pre.length = ((p.2.length + 28 : Nat) : Int) := by
        rw [hshape1]
        exact readInt32LE_at pre (p.2.length + 28) _ hL31
      have hmidlen : (p.1 ++ aeadEncrypt key p.1 p.2).length = p.2.length + 28 := by
        rw [List.length_append, aeadEncrypt_length, hiv1]
        omega
      have hprelen : (pre ++ toLE32 (p.2.length + 28)).length = pre.length + 4 := by
        rw [List.length_append, toLE32_length]
      have hblen : buf.length
          = pre.length + 4 + (p.2.length + 28)
            + ((ps.map (frameOf key)).flatten.length + rest.length) := by
        rw [hshape2]
        simp only [List.length_append, hprelen, hmidlen]
      have hslice : jsSlice buf ((pre.length : Int) + 4)
          ((pre.length : Int) + 4 + ((p.2.length + 28 : Nat) : Int))
          = p.1 ++ aeadEncrypt key p.1 p.2 := by
        have h := jsSlice_exact (pre ++ toLE32 (p.2.length + 28))
          (p.1 ++ aeadEncrypt key p.1 p.2) ((ps.map (frameOf key)).flatten ++ rest)
        rw [← hshape2, hprelen, hmidlen] at h
        have hc1 : ((pre.length + 4 : Nat) : Int) = (pre.length : Int) + 4 := by
          push_cast; ring
        rw [hc1] at h
        exact h
      have hivs : jsSlice (p.1 ++ aeadEncrypt key p.1 p.2) 0 (IV_LENGTH : Int) = p.1 := by
        have h12 : ((IV_LENGTH : Nat) : Int) = ((p.1.length : Nat) : Int) := by
          rw [hiv1]; rfl
        rw [h12]
        exact jsSlice_front p.1 (aeadEncrypt key p.1 p.2)
      have hcts : jsSlice (p.1 ++ aeadEncrypt key p.1 p.2) (IV_LENGTH : Int)
          (((p.1 ++ aeadEncrypt key p.1 p.2).length : Nat) : Int)
          = aeadEncrypt key p.1 p.2 := by
        have h12 : ((IV_LENGTH : Nat) : Int) = ((p.1.length : Nat) : Int) := by
          rw [hiv1]; rfl
        rw [h12]
        exact jsSlice_suffix p.1 (aeadEncrypt key p.1 p.2)
      rw [decryptCancelLoop]
      rw [if_pos (show (pre.length : Int) < (buf.length : Int) from by omega)]
      by_cases h0 : cancel idx = true
      · rw [if_pos h0]
      · rw [if_neg h0]
        rw [if_neg (by omega), if_neg (by omega)]
        simp only [Int.toNat_natCast, hread]
        rw [if_neg (by omega)]
        rw [hslice, hivs, hcts, aeadDecrypt_encrypt]
        rw [Option.elim_some]
        have hoff : (pre.length : Int) + 4 + ((p.2.length + 28 : Nat) : Int)
            = (((pre ++ frameOf key p).length : Nat) : Int) := by
          have h1 : (pre ++ frameOf key p).length = pre.length + (p.2.length + 32) := by
            simp [List.length_append, frameOf_length key p (by rw [hiv1]; rfl)]
          rw [h1]; push_cast; ring
        rw [hoff]
        have hbuf' : buf
            = (pre ++ frameOf key p) ++ (ps.map (frameOf key)).flatten ++ rest := by
          rw [hbuf]
          simp [List.append_assoc]
        cases k with
        | zero =>
          rw [Nat.add_zero] at hc
          exact absurd hc h0
        | succ m =>
          exact ih buf (pre ++ frameOf key p) rest f (idx + 1) (acc ++ [p.2]) hbuf'
            (fun q hq => hiv q (List.mem_cons_of_mem p hq))
            (fun q hq => hpt q (List.mem_cons_of_mem p hq))
            hrest (by simp at hfuel ⊢; omega)
            ⟨m, by simp only [List.length_cons] at hk; omega,
              by rw [show idx + 1 + m = idx + (m + 1) from by omega]; exact hc⟩

/-- C3 (modelled from the spec; the cancellation-token handling is
absent from the provided `src/services/cryptoService.ts`, though its
callers pass an `AbortSignal`): for either stream operation, if the
token is signaled at any chunk/frame index while chunks/frames remain,
the operation halts at that chunk/frame boundary and fails with
`CancelledError`, returning no output — the chunks or plaintext
produced before the signaled index are discarded, and the error
carries none of them. -/
theorem claim3_cancellation :
    (∀ (cancel : Nat → Bool) (password : Bytes) (keyFile : Option Bytes)
       (salt : Bytes) (ivs : Nat → Bytes) (data : Bytes),
       (∃ i, i < (chunkify data).length ∧ cancel i = true) →
       encryptStreamCancel cancel password keyFile salt ivs data = .error .cancelled)
    ∧ (∀ (cancel : Nat → Bool) (password : Bytes) (keyFile : Option Bytes)
       (salt : Bytes) (ivpts : List (Bytes × Bytes)) (rest : Bytes),
       salt.length = 32 →
       (∀ p ∈ ivpts, p.1.length = IV_LENGTH) →
       (∀ p ∈ ivpts, p.2.length ≤ CHUNK_SIZE) →
       rest.length < 4 →
       (∃ i, i < ivpts.length ∧ cancel i = true) →
       decryptStreamCancel cancel password keyFile
         (FILE_MAGIC ++ [FILE_VERSION] ++ salt
           ++ (ivpts.map (frameOf (deriveKey (prepareKeyMaterial password keyFile) salt))).flatten
           ++ rest)
         = some (.error .cancelled)) := by
  constructor
  · intro cancel password keyFile salt ivs data h
    have hloop := encryptCancelLoop_cancelled cancel
      (deriveKey (prepareKeyMaterial password keyFile) salt) ivs data.length
      (chunkify data) 0 0 (by simpa using h)
    simp only [encryptStreamCancel, hloop]
  · intro cancel password keyFile salt ivpts rest hs hiv hpt hrest hex
    set key := deriveKey (prepareKeyMaterial password keyFile) salt with hkey
    set buf := FILE_MAGIC ++ [FILE_VERSION] ++ salt
      ++ (ivpts.map (frameOf key)).flatten ++ rest with hbufdef
    have hcons : buf = 65 :: 69 :: 71 :: 73 :: 83 :: 2
        :: (salt ++ ((ivpts.map (frameOf key)).flatten ++ rest)) := by
      rw [hbufdef]
      simp [FILE_MAGIC, FILE_VERSION, List.append_assoc]
    have hmag : ∀ i < FILE_MAGIC.length, buf.get? i = FILE_MAGIC.get? i := by
      intro i hi
      have hi5 : i < 5 := by simpa [FILE_MAGIC] using hi
      rw [hcons]
      interval_cases i <;> rfl
    have hver : buf.get? FILE_MAGIC.length = some 2 := by
      rw [hcons]; rfl
    have hshape : buf = (FILE_MAGIC ++ [FILE_VERSION]) ++ salt
        ++ ((ivpts.map (frameOf key)).flatten ++ rest) := by
      rw [hbufdef]; simp [List.append_assoc]
    have hsalt : jsSlice buf 6 (6 + (SALT_LENGTH : Int)) = salt := by
      have h := jsSlice_exact (FILE_MAGIC ++ [FILE_VERSION]) salt
        ((ivpts.map (frameOf key)).flatten ++ rest)
      rw [← hshape] at h
      have h6 : ((FILE_MAGIC ++ [FILE_VERSION]).length : Int) = 6 := by
        simp [FILE_MAGIC]
      have h32 : ((salt.length : Nat) : Int) = (SALT_LENGTH : Int) := by
        rw [hs]; rfl
      rw [h6, h32] at h
      exact h
    have hpre : (FILE_MAGIC ++ [FILE_VERSION] ++ salt).length = 38 := by
      simp [FILE_MAGIC, hs]
    have hshape2 : buf = (FILE_MAGIC ++ [FILE_VERSION] ++ salt)
        ++ (ivpts.map (frameOf key)).flatten ++ rest := by
      rw [hbufdef]
    have hblen : buf.length
        = 38 + ((ivpts.map (frameOf key)).flatten.length + rest.length) := by
      rw [hshape2]
      simp only [List.length_append, hpre]
      omega
    have hfuel : ivpts.length < buf.length + 1 := by
      have h1 := length_le_flatten_frames key ivpts hiv
      omega
    simp only [decryptStreamCancel, if_pos hmag, if_pos hver]
    rw [hsalt, ← hkey]
    rw [show (38 : Int) = (((FILE_MAGIC ++ [FILE_VERSION] ++ salt).length : Nat) : Int) from by
      rw [hpre]; rfl]
    rw [decryptCancelLoop_cancelled cancel key ivpts buf
      (FILE_MAGIC ++ [FILE_VERSION] ++ salt) rest (buf.length + 1) 0 []
      hshape2 hiv hpt hrest hfuel (by simpa using hex)]
    rfl

/-- Witness for C3 at concrete inputs: a token already signaled for
the one-chunk encrypt, and a token signaled only at frame index 1 for
the decrypt of a two-frame container — the first frame is processed
and then discarded. -/
theorem claim3_cancellation_witness :
    encryptStreamCancel (fun _ => true) [] none (List.replicate 32 0)
        (fun _ => List.replicate 12 0) [1] = .error .cancelled
    ∧ decryptStreamCancel (fun i => decide (i = 1)) [] none
        (FILE_MAGIC ++ [FILE_VERSION] ++ List.replicate 32 0
          ++ ([(List.replicate 12 0, [1]), (List.replicate 12 0, [2])].map
              (frameOf (deriveKey (prepareKeyMaterial [] none)
                (List.replicate 32 0)))).flatten
          ++ [])
      = some (.error .cancelled) :=
  ⟨claim3_cancellation.1 (fun _ => true) [] none (List.replicate 32 0)
      (fun _ => List.replicate 12 0) [1] ⟨0, by decide, rfl⟩,
   claim3_cancellation.2 (fun i => decide (i = 1)) [] none (List.replicate 32 0)
      [(List.replicate 12 0, [1]), (List.replicate 12 0, [2])] []
      (by decide) (by decide) (by decide) (by decide) ⟨1, by decide, rfl⟩⟩

end Aegis
